import Mathlib

/-!
Ringer: a verification development for `sb_ringer.c`.

Shallow embedding of `run_Ringer` (the LADSPA plugin, `src/sb_ringer.c`) and of
the instrumented copy in `src/unit_test_for_ringer.c`.

* `unsigned long` values are natural numbers reduced modulo `2 ^ 64`.
* Sample buffers live in a heap of blocks; a pointer is `none` (NULL) or the
  number of a block, so the input and the output port may name the same block.
* A sample is an element of an arbitrary type: the code only copies samples.
* Every loop takes a fuel argument; running out of fuel is the error
  `Err.out_of_fuel`.
* Each state carries the list of memory accesses and `fprintf` calls made so
  far, in program order.
-/

namespace SbRinger

/-- Conversion of an `int` to `unsigned long`. -/
def to_ulong (x : Int) : Nat := (x % (2 ^ 64 : Int)).toNat

/-- Subtraction of two `unsigned long` values. -/
def usub (a b : Nat) : Nat := (a % 2 ^ 64 + 2 ^ 64 - b % 2 ^ 64) % 2 ^ 64

/-- Addition of two `unsigned long` values. -/
def uadd (a b : Nat) : Nat := (a + b) % 2 ^ 64

/-- The definition `LIMIT_BETWEEN_5_AND_200(x)` of `sb_ringer.c` (line 62). -/
def LIMIT_BETWEEN_5_AND_200 (x : Int) : Int :=
  if x < 5 then 5 else if x > 200 then 200 else x

/-- The definition `LIMIT_BETWEEN_5_AND_500(x)` of `unit_test_for_ringer.c` (line 8). -/
def LIMIT_BETWEEN_5_AND_500 (x : Int) : Int :=
  if x < 5 then 5 else if x > 500 then 500 else x

/-- The struct `Ringer`. `copy_count` is the integer that the cast
`(int) *(ringer->copy_count)` yields; `Input` and `Output` are pointers to
sample buffers (`none` is NULL, `some a` is block `a` of the heap). -/
structure Ringer where
  copy_count : Int
  Input : Option Nat
  Output : Option Nat
  deriving DecidableEq

/-- Memory: a list of sample buffers. -/
abbrev Heap (α : Type) := List (List α)

/-- What the program did, in program order: a read of `input[i]`, a write of
`output[i]`, and the two kinds of `fprintf` to the trace file. -/
inductive Event (α : Type) where
  | read (i : Nat) (v : α)
  | write (i : Nat) (v : α)
  | fprintf_count (n : Nat)
  | fprintf_sample (v : α)
  deriving DecidableEq

/-- Ways in which an execution does not return. -/
inductive Err where
  | null_pointer
  | invalid_pointer
  | out_of_bounds
  | out_of_fuel
  deriving DecidableEq

/-- How `run_Ringer` returned. -/
inductive Status where
  | insufficient_samples
  | null_instance
  | fopen_failed
  | completed
  deriving DecidableEq

/-- Memory, the two cursors of `run_Ringer`, and the events so far. -/
structure State (α : Type) where
  heap : Heap α
  in_index : Nat
  out_index : Nat
  log : List (Event α)
  deriving DecidableEq

variable {α : Type}

/-- Evaluation of `p[i]`. -/
def load (heap : Heap α) (p : Option Nat) (i : Nat) : Except Err α :=
  match p with
  | none => .error .null_pointer
  | some a =>
    match heap[a]? with
    | none => .error .invalid_pointer
    | some buf =>
      match buf[i]? with
      | none => .error .out_of_bounds
      | some v => .ok v

/-- Execution of `p[i] = v`. -/
def store (heap : Heap α) (p : Option Nat) (i : Nat) (v : α) : Except Err (Heap α) :=
  match p with
  | none => .error .null_pointer
  | some b =>
    match heap[b]? with
    | none => .error .invalid_pointer
    | some buf =>
      if i < buf.length then .ok (heap.set b (buf.set i v)) else .error .out_of_bounds

/-- The statement `output[out_index++] = input[in_index];`. -/
def copy_sample (input output : Option Nat) (s : State α) : Except Err (State α) :=
  match load s.heap input s.in_index with
  | .error e => .error e
  | .ok v =>
    match store s.heap output s.out_index v with
    | .error e => .error e
    | .ok heap =>
      .ok { heap := heap
            in_index := s.in_index
            out_index := uadd s.out_index 1
            log := s.log ++ [Event.read s.in_index v, Event.write s.out_index v] }

/-- The loop `while (out_index < bound) output[out_index++] = input[in_index];`
(lines 205-206 with `bound = sample_count`, lines 215-216 with
`bound = in_index + SAMPLE_COPY_COUNT`). -/
def fill_until (input output : Option Nat) (bound : Nat) :
    Nat → State α → Except Err (State α)
  | 0, _ => .error .out_of_fuel
  | fuel + 1, s =>
    if s.out_index < bound then
      match copy_sample input output s with
      | .error e => .error e
      | .ok s1 => fill_until input output bound fuel s1
    else .ok s

/-- The condition of the `if` at lines 201-203. -/
def tail_test (sample_count in_index : Nat) (SAMPLE_COPY_COUNT : Int) : Bool :=
  decide (in_index ≥ usub sample_count (to_ulong (SAMPLE_COPY_COUNT - 1)))
  || decide (usub sample_count (to_ulong (SAMPLE_COPY_COUNT - 1))
      ≥ usub 0xFFFFFFFFFFFFFFFF (to_ulong (SAMPLE_COPY_COUNT - 1)))

/-- The loop `while (in_index < sample_count) { ... }` at lines 184-225. -/
def main_loop (input output : Option Nat) (sample_count : Nat) (SAMPLE_COPY_COUNT : Int) :
    Nat → State α → Except Err (State α)
  | 0, _ => .error .out_of_fuel
  | fuel + 1, s =>
    if s.in_index < sample_count then
      match copy_sample input output s with
      | .error e => .error e
      | .ok s1 =>
        if tail_test sample_count s1.in_index SAMPLE_COPY_COUNT then
          fill_until input output sample_count fuel s1
        else
          match fill_until input output (uadd s1.in_index (to_ulong SAMPLE_COPY_COUNT))
              fuel s1 with
          | .error e => .error e
          | .ok s2 =>
            let s3 : State α :=
              { s2 with in_index := uadd s2.in_index (to_ulong SAMPLE_COPY_COUNT) }
            if s3.in_index ≥ sample_count then .ok s3
            else main_loop input output sample_count SAMPLE_COPY_COUNT fuel s3
    else .ok s

/-- The function `run_Ringer` of `sb_ringer.c`. `handle` is the argument
`instance` (`none` is NULL). -/
def run_Ringer (fuel : Nat) (handle : Option Ringer) (sample_count : Nat) (heap : Heap α) :
    Except Err (Status × State α) :=
  let s0 : State α := { heap := heap, in_index := 0, out_index := 0, log := [] }
  if sample_count ≤ 1 then .ok (Status.insufficient_samples, s0)
  else
    match handle with
    | none => .ok (Status.null_instance, s0)
    | some ringer =>
      let SAMPLE_COPY_COUNT := LIMIT_BETWEEN_5_AND_200 ringer.copy_count
      match main_loop ringer.Input ringer.Output sample_count SAMPLE_COPY_COUNT fuel s0 with
      | .error e => .error e
      | .ok s => .ok (Status.completed, s)

/-! ## The instrumented copy in `unit_test_for_ringer.c` -/

namespace UnitTest

/-- The statement `fprintf(write_file, "\n%f", input[in_index]);`. -/
def print_sample (input : Option Nat) (s : State α) : Except Err (State α) :=
  match load s.heap input s.in_index with
  | .error e => .error e
  | .ok v =>
    .ok { s with log := s.log ++ [Event.read s.in_index v, Event.fprintf_sample v] }

/-- The loops at lines 165-175 and 181-191 of the test driver: each round
prints `input[in_index]` and then copies it. -/
def fill_until (input output : Option Nat) (bound : Nat) :
    Nat → State α → Except Err (State α)
  | 0, _ => .error .out_of_fuel
  | fuel + 1, s =>
    if s.out_index < bound then
      match print_sample input s with
      | .error e => .error e
      | .ok s1 =>
        match copy_sample input output s1 with
        | .error e => .error e
        | .ok s2 => fill_until input output bound fuel s2
    else .ok s

/-- The loop `while (in_index < sample_count) { ... }` at lines 153-198 of the
test driver. -/
def main_loop (input output : Option Nat) (sample_count : Nat) (SAMPLE_COPY_COUNT : Int) :
    Nat → State α → Except Err (State α)
  | 0, _ => .error .out_of_fuel
  | fuel + 1, s =>
    if s.in_index < sample_count then
      match copy_sample input output s with
      | .error e => .error e
      | .ok s0 =>
        match print_sample input s0 with
        | .error e => .error e
        | .ok s1 =>
          if tail_test sample_count s1.in_index SAMPLE_COPY_COUNT then
            fill_until input output sample_count fuel s1
          else
            match fill_until input output (uadd s1.in_index (to_ulong SAMPLE_COPY_COUNT))
                fuel s1 with
            | .error e => .error e
            | .ok s2 =>
              let s3 : State α :=
                { s2 with in_index := uadd s2.in_index (to_ulong SAMPLE_COPY_COUNT) }
              if s3.in_index ≥ sample_count then .ok s3
              else main_loop input output sample_count SAMPLE_COPY_COUNT fuel s3
    else .ok s

/-- The function `run_Ringer` of `unit_test_for_ringer.c`. `fopen_ok` tells
whether `fopen(filename, "w")` returned a file. -/
def run_Ringer (fuel : Nat) (fopen_ok : Bool) (handle : Option Ringer) (sample_count : Nat)
    (heap : Heap α) : Except Err (Status × State α) :=
  let s0 : State α := { heap := heap, in_index := 0, out_index := 0, log := [] }
  if sample_count ≤ 1 then .ok (Status.insufficient_samples, s0)
  else
    match handle with
    | none => .ok (Status.null_instance, s0)
    | some ringer =>
      let SAMPLE_COPY_COUNT := LIMIT_BETWEEN_5_AND_500 ringer.copy_count
      if !fopen_ok then .ok (Status.fopen_failed, s0)
      else
        let s1 : State α := { s0 with log := [Event.fprintf_count sample_count] }
        match main_loop ringer.Input ringer.Output sample_count SAMPLE_COPY_COUNT fuel s1 with
        | .error e => .error e
        | .ok s => .ok (Status.completed, s)

end UnitTest

/-! ## Reading the event list -/

/-- The writes of an event list: index and value, in program order. -/
def writes : List (Event α) → List (Nat × α)
  | [] => []
  | Event.write i v :: l => (i, v) :: writes l
  | _ :: l => writes l

/-- The indices read, in program order. -/
def reads : List (Event α) → List Nat
  | [] => []
  | Event.read i _ :: l => i :: reads l
  | _ :: l => reads l

/-- The sample lines of the trace file, in program order. -/
def printed : List (Event α) → List α
  | [] => []
  | Event.fprintf_sample v :: l => v :: printed l
  | _ :: l => printed l

/-- The buffer `l` with the `n` slots from `q` on set to `v`. -/
def paint (l : List α) (q : Nat) : Nat → α → List α
  | 0, _ => l
  | n + 1, v => paint (l.set q v) (q + 1) n v

/-- The events of copying `v`, read at `input[p]`, into the `n` output slots
from `q` on. -/
def fill_events (p : Nat) (v : α) (q n : Nat) : List (Event α) :=
  (List.range' q n).flatMap fun j => [Event.read p v, Event.write j v]

/-- The input index whose sample lands in output slot `j`, for a run that
starts with both cursors at `p` and repeats each retained sample `c` times. -/
def src (p c j : Nat) : Nat := p + c * ((j - p) / c)

/-- The two events of filling output slot `j`. -/
def ring_event (input0 : List α) (p c j : Nat) : List (Event α) :=
  match input0[src p c j]? with
  | some v => [Event.read (src p c j) v, Event.write j v]
  | none => []

/-- The events of filling the `m` output slots from `p` on. -/
def ring_events (input0 : List α) (p c m : Nat) : List (Event α) :=
  (List.range' p m).flatMap (ring_event input0 p c)

/-- A call `run_Ringer(ringer, sample_count)` as a host makes it: the input
port is connected to block `a` and the output port to block `b` of the heap
(the two may be the same block), these blocks hold `input` and `output`, of at
least `sample_count` samples each, and `sample_count` is an `unsigned long`
greater than 1 and other than `ULONG_MAX` (no buffer has `2 ^ 64 - 1` samples). -/
structure ValidCall (ringer : Ringer) (sample_count : Nat) (heap : Heap α) (a b : Nat)
    (input output : List α) : Prop where
  Input_eq : ringer.Input = some a
  Output_eq : ringer.Output = some b
  input_at : heap[a]? = some input
  output_at : heap[b]? = some output
  count_gt : 1 < sample_count
  count_lt : sample_count < 2 ^ 64 - 1
  input_len : sample_count ≤ input.length
  output_len : sample_count ≤ output.length

/-- The repeat factor of the plugin: `SAMPLE_COPY_COUNT` as a natural number. -/
def copies (ringer : Ringer) : Nat := (LIMIT_BETWEEN_5_AND_200 ringer.copy_count).toNat

/-- The events of one round of the test driver's inner loops, for the `n`
output slots from `q` on. -/
def test_fill_events (p : Nat) (v : α) (q n : Nat) : List (Event α) :=
  (List.range' q n).flatMap fun j =>
    [Event.read p v, Event.fprintf_sample v, Event.read p v, Event.write j v]

/-- The events of the test driver for output slot `j`: the first slot of a run
is written and then printed, the others are printed and then written. -/
def test_ring_event (input0 : List α) (p c j : Nat) : List (Event α) :=
  match input0[src p c j]? with
  | some v =>
    if src p c j = j then
      [Event.read (src p c j) v, Event.write j v, Event.read (src p c j) v,
        Event.fprintf_sample v]
    else
      [Event.read (src p c j) v, Event.fprintf_sample v, Event.read (src p c j) v,
        Event.write j v]
  | none => []

/-- The events of the test driver for the `m` output slots from `p` on. -/
def test_ring_events (input0 : List α) (p c m : Nat) : List (Event α) :=
  (List.range' p m).flatMap (test_ring_event input0 p c)

/-- The repeat factor of the test driver. -/
def test_copies (ringer : Ringer) : Nat := (LIMIT_BETWEEN_5_AND_500 ringer.copy_count).toNat

/-- The reads of an event list: index and value, in program order. -/
def loads : List (Event α) → List (Nat × α)
  | [] => []
  | Event.read i v :: l => (i, v) :: loads l
  | _ :: l => loads l

/-- The first disjunct of the condition at lines 201-203:
`in_index >= sample_count - (SAMPLE_COPY_COUNT - 1)`. -/
def tail_reached (sample_count in_index : Nat) (SAMPLE_COPY_COUNT : Int) : Bool :=
  decide (in_index ≥ usub sample_count (to_ulong (SAMPLE_COPY_COUNT - 1)))

/-- The second disjunct of the condition at lines 201-203:
`sample_count - (SAMPLE_COPY_COUNT - 1) >= 0xFFFFFFFFFFFFFFFF - (SAMPLE_COPY_COUNT - 1)`. -/
def wrap_sentinel (sample_count : Nat) (SAMPLE_COPY_COUNT : Int) : Bool :=
  decide (usub sample_count (to_ulong (SAMPLE_COPY_COUNT - 1))
    ≥ usub 0xFFFFFFFFFFFFFFFF (to_ulong (SAMPLE_COPY_COUNT - 1)))

/-- One pass through the body of the main loop (lines 186-224), entered with
`in_index < sample_count`. The flag is `false` when the pass leaves the loop by
one of the two `break` statements and `true` when it reaches the closing
brace. -/
def loop_body (input output : Option Nat) (sample_count : Nat) (SAMPLE_COPY_COUNT : Int)
    (fuel : Nat) (s : State α) : Except Err (State α × Bool) :=
  match copy_sample input output s with
  | .error e => .error e
  | .ok s1 =>
    if tail_test sample_count s1.in_index SAMPLE_COPY_COUNT then
      match fill_until input output sample_count fuel s1 with
      | .error e => .error e
      | .ok s2 => .ok (s2, false)
    else
      match fill_until input output (uadd s1.in_index (to_ulong SAMPLE_COPY_COUNT))
          fuel s1 with
      | .error e => .error e
      | .ok s2 =>
        let s3 : State α :=
          { s2 with in_index := uadd s2.in_index (to_ulong SAMPLE_COPY_COUNT) }
        if s3.in_index ≥ sample_count then .ok (s3, false) else .ok (s3, true)

/-! ## The algorithm as the specification words it -/

/-- The clamp of the specification: the value of the closed range `[lo, hi]`
nearest to `r`. -/
def spec_clamp (lo hi r : Int) : Int := max lo (min hi r)

/-- The core algorithm of section 4.1 of the specification, in unbounded
integers: while `in_index < sample_count`, if
`sample_count - in_index ≤ repeat_factor` write `input[in_index]` into every
output slot from `out_index` to `sample_count - 1` and stop; otherwise write it
into the `repeat_factor` slots from `out_index` on and advance both cursors by
`repeat_factor`. -/
def spec_loop (input : List α) (sample_count repeat_factor : Nat) :
    Nat → Nat → Nat → List α → Option (List α)
  | 0, _, _, _ => none
  | fuel + 1, in_index, out_index, output =>
    if in_index ≥ sample_count then some output
    else
      match input[in_index]? with
      | none => none
      | some v =>
        if sample_count - in_index ≤ repeat_factor then
          some (paint output out_index (sample_count - out_index) v)
        else
          spec_loop input sample_count repeat_factor fuel (in_index + repeat_factor)
            (out_index + repeat_factor) (paint output out_index repeat_factor v)

/-- The transform of the specification for `sample_count > 1` with the clamp
range `[5, 200]` of the plugin: both cursors start at 0. -/
def spec_transform (fuel : Nat) (input : List α) (sample_count : Nat) (raw_repeat : Int)
    (output : List α) : Option (List α) :=
  spec_loop input sample_count (spec_clamp 5 200 raw_repeat).toNat fuel 0 0 output

/-! ## Arithmetic of the cursors -/

theorem to_ulong_natCast (n : Nat) (hn : n < 2 ^ 64) : to_ulong (n : Int) = n := by
  unfold to_ulong
  omega

theorem to_ulong_natCast_pred (n : Nat) (h1 : 1 ≤ n) (hn : n < 2 ^ 64) :
    to_ulong ((n : Int) - 1) = n - 1 := by
  unfold to_ulong
  omega

theorem tail_test_iff (sample_count p n : Nat) (h1 : 1 ≤ n) (hn : n < 2 ^ 63)
    (hs : sample_count < 2 ^ 64 - 1) (hp : p < 2 ^ 64) :
    tail_test sample_count p (n : Int) = true ↔ sample_count < p + n := by
  unfold tail_test
  rw [to_ulong_natCast_pred n h1 (by omega)]
  unfold usub
  simp only [Bool.or_eq_true, decide_eq_true_eq]
  omega

theorem uadd_eq (a b : Nat) (h : a + b < 2 ^ 64) : uadd a b = a + b := by
  unfold uadd
  omega

/-! ## Memory -/

theorem length_paint (n : Nat) : ∀ (l : List α) (q : Nat) (v : α),
    (paint l q n v).length = l.length := by
  induction n with
  | zero => intro l q v; rfl
  | succ n ih => intro l q v; simp [paint, ih]

theorem getElem?_paint (n : Nat) : ∀ (l : List α) (q : Nat) (v : α) (j : Nat),
    (paint l q n v)[j]? = if q ≤ j ∧ j < q + n then l[j]?.map (fun _ => v) else l[j]? := by
  induction n with
  | zero =>
    intro l q v j
    simp only [paint, Nat.add_zero]
    rw [if_neg (by omega)]
  | succ n ih =>
    intro l q v j
    simp only [paint, ih, List.getElem?_set]
    by_cases h1 : q = j
    · subst h1
      by_cases h2 : q < l.length
      · simp [h2]
      · simp [h2, List.getElem?_eq_none (Nat.le_of_not_lt h2)]
    · by_cases h2 : q + 1 ≤ j ∧ j < q + 1 + n
      · have h3 : q ≤ j ∧ j < q + (n + 1) := by omega
        simp [h1, h2, h3]
      · have h3 : ¬ (q ≤ j ∧ j < q + (n + 1)) := by omega
        simp [h1, h2, h3]

theorem set_eq_self (heap : Heap α) (b : Nat) (buf : List α) (h : heap[b]? = some buf) :
    heap.set b buf = heap := by
  apply List.ext_getElem?
  intro j
  rw [List.getElem?_set]
  by_cases hj : b = j
  · subst hj
    have hlt : b < heap.length := by
      by_contra hc
      rw [List.getElem?_eq_none (Nat.le_of_not_lt hc)] at h
      cases h
    simp [hlt, h]
  · simp [hj]

theorem getElem?_set_self_some (heap : Heap α) (b : Nat) (buf buf1 : List α)
    (h : heap[b]? = some buf) : (heap.set b buf1)[b]? = some buf1 := by
  have hlt : b < heap.length := by
    by_contra hc
    rw [List.getElem?_eq_none (Nat.le_of_not_lt hc)] at h
    cases h
  simp [List.getElem?_set, hlt]

theorem load_ok (heap : Heap α) (a i : Nat) (buf : List α) (v : α)
    (h1 : heap[a]? = some buf) (h2 : buf[i]? = some v) : load heap (some a) i = .ok v := by
  simp [load, h1, h2]

theorem store_ok (heap : Heap α) (b i : Nat) (buf : List α) (v : α)
    (h1 : heap[b]? = some buf) (h2 : i < buf.length) :
    store heap (some b) i v = .ok (heap.set b (buf.set i v)) := by
  simp [store, h1, h2]

theorem copy_sample_ok (a b : Nat) (s : State α) (ibuf obuf : List α) (v : α)
    (ha : s.heap[a]? = some ibuf) (hv : ibuf[s.in_index]? = some v)
    (hb : s.heap[b]? = some obuf) (hq : s.out_index < obuf.length) :
    copy_sample (some a) (some b) s = .ok
      { heap := s.heap.set b (obuf.set s.out_index v)
        in_index := s.in_index
        out_index := uadd s.out_index 1
        log := s.log ++ [Event.read s.in_index v, Event.write s.out_index v] } := by
  simp [copy_sample, load_ok _ _ _ _ _ ha hv, store_ok _ _ _ _ v hb hq]

theorem input_after_set (heap : Heap α) (a b : Nat) (ibuf obuf obuf1 : List α)
    (ha : heap[a]? = some ibuf) (hb : heap[b]? = some obuf) :
    ∃ ibuf1, (heap.set b obuf1)[a]? = some ibuf1 ∧ (a ≠ b → ibuf1 = ibuf)
      ∧ (a = b → ibuf1 = obuf1 ∧ ibuf = obuf) := by
  by_cases hab : a = b
  · subst hab
    refine ⟨obuf1, getElem?_set_self_some heap a obuf obuf1 hb, fun h => absurd rfl h, ?_⟩
    intro _
    rw [ha] at hb
    exact ⟨rfl, Option.some.inj hb⟩
  · refine ⟨ibuf, ?_, fun _ => rfl, fun h => absurd h hab⟩
    rw [List.getElem?_set_ne (Ne.symm hab)]
    exact ha

/-! ## The copy loops -/

theorem fill_until_ok (a b bound p : Nat) (v : α) (hbound : bound < 2 ^ 64) :
    ∀ (fuel : Nat) (s : State α) (ibuf obuf : List α),
      s.in_index = p → s.heap[a]? = some ibuf → ibuf[p]? = some v →
      (a = b → p < s.out_index) → s.heap[b]? = some obuf → bound ≤ obuf.length →
      s.out_index ≤ bound → bound - s.out_index < fuel →
      fill_until (some a) (some b) bound fuel s = .ok
        { heap := s.heap.set b (paint obuf s.out_index (bound - s.out_index) v)
          in_index := p
          out_index := bound
          log := s.log ++ fill_events p v s.out_index (bound - s.out_index) } := by
  intro fuel
  induction fuel with
  | zero => intro s ibuf obuf _ _ _ _ _ _ _ hfuel; omega
  | succ fuel ih =>
    intro s ibuf obuf hp ha hv hab hb hlen hle hfuel
    rw [fill_until]
    by_cases hlt : s.out_index < bound
    · rw [if_pos hlt, copy_sample_ok a b s ibuf obuf v ha (hp ▸ hv) hb (by omega)]
      simp only
      have hq1 : uadd s.out_index 1 = s.out_index + 1 := uadd_eq _ _ (by omega)
      obtain ⟨ibuf1, hi1, hne, heq⟩ :=
        input_after_set s.heap a b ibuf obuf (obuf.set s.out_index v) ha hb
      have hv1 : ibuf1[p]? = some v := by
        by_cases h : a = b
        · obtain ⟨e1, e2⟩ := heq h
          have hpq := hab h
          rw [e1, List.getElem?_set_ne (by omega), ← e2]
          exact hv
        · rw [hne h]; exact hv
      rw [hq1]
      rw [ih ⟨s.heap.set b (obuf.set s.out_index v), s.in_index, s.out_index + 1,
          s.log ++ [Event.read s.in_index v, Event.write s.out_index v]⟩
        ibuf1 (obuf.set s.out_index v) hp hi1 hv1
        (by intro h; have := hab h; show p < s.out_index + 1; omega)
        (getElem?_set_self_some s.heap b obuf _ hb) (by simpa using hlen)
        (by show s.out_index + 1 ≤ bound; omega)
        (by show bound - (s.out_index + 1) < fuel; omega)]
      have hn : bound - s.out_index = (bound - (s.out_index + 1)) + 1 := by omega
      rw [hn]
      simp [paint, fill_events, List.range'_succ, List.set_set, hp]
    · have h0 : bound - s.out_index = 0 := by omega
      have h1 : s.out_index = bound := by omega
      rw [if_neg hlt, h0]
      simp [paint, fill_events, set_eq_self _ _ _ hb, ← hp, ← h1]

theorem src_eq_start (p c j : Nat) (h1 : p ≤ j) (h2 : j < p + c) : src p c j = p := by
  unfold src
  have h : (j - p) / c = 0 := Nat.div_eq_of_lt (by omega)
  rw [h]
  omega

theorem src_shift (p c j : Nat) (hc : 0 < c) (h1 : p + c ≤ j) : src (p + c) c j = src p c j := by
  unfold src
  have h : j - p = (j - (p + c)) + c := by omega
  rw [h, Nat.add_div_right _ hc, Nat.mul_succ]
  omega

theorem ring_events_short (input0 : List α) (p c m : Nat) (v : α)
    (hv : input0[p]? = some v) (hm : m ≤ c) :
    ring_events input0 p c m = fill_events p v p m := by
  unfold ring_events fill_events
  apply List.flatMap_congr
  intro j hj
  rw [List.mem_range'_1] at hj
  unfold ring_event
  rw [src_eq_start p c j hj.1 (by omega), hv]

theorem ring_events_split (input0 : List α) (p c m : Nat) (hc : 0 < c) (hm : c ≤ m) :
    ring_events input0 p c m
      = ring_events input0 p c c ++ ring_events input0 (p + c) c (m - c) := by
  unfold ring_events
  have h : List.range' p m = List.range' p c ++ List.range' (p + c) (m - c) := by
    have := List.range'_append p c (m - c) 1
    simp only [Nat.one_mul] at this
    rw [this]
    congr 1
    omega
  rw [h, List.flatMap_append]
  congr 1
  apply List.flatMap_congr
  intro j hj
  rw [List.mem_range'_1] at hj
  unfold ring_event
  rw [src_shift p c j hc hj.1]

theorem paint_ringed (input0 obuf : List α) (p c m : Nat) (v : α)
    (hv : input0[p]? = some v) (hm : m ≤ c) (hlen : p + m ≤ obuf.length) (j : Nat) :
    (paint obuf p m v)[j]?
      = if p ≤ j ∧ j < p + m then input0[src p c j]? else obuf[j]? := by
  rw [getElem?_paint]
  by_cases h : p ≤ j ∧ j < p + m
  · rw [if_pos h, if_pos h, src_eq_start p c j h.1 (by omega), hv]
    have hj : j < obuf.length := by omega
    simp [List.getElem?_eq_getElem hj]
  · rw [if_neg h, if_neg h]

theorem copy_then_fill (a b bound p : Nat) (v : α) (hbound : bound < 2 ^ 64)
    (fuel : Nat) (heap : Heap α) (log : List (Event α)) (ibuf obuf : List α)
    (ha : heap[a]? = some ibuf) (hv : ibuf[p]? = some v) (hb : heap[b]? = some obuf)
    (hp : p < bound) (hlen : bound ≤ obuf.length) (hfuel : bound - p ≤ fuel) :
    ∃ s1, copy_sample (some a) (some b) ⟨heap, p, p, log⟩ = .ok s1 ∧ s1.in_index = p
      ∧ fill_until (some a) (some b) bound fuel s1 = .ok
        ⟨heap.set b (paint obuf p (bound - p) v), p, bound,
          log ++ fill_events p v p (bound - p)⟩ := by
  refine ⟨_, copy_sample_ok a b ⟨heap, p, p, log⟩ ibuf obuf v ha hv hb (by show p < _; omega),
    rfl, ?_⟩
  simp only
  rw [uadd_eq p 1 (by omega)]
  obtain ⟨ibuf1, hi1, hne, heq⟩ := input_after_set heap a b ibuf obuf (obuf.set p v) ha hb
  have hv1 : ibuf1[p]? = some v := by
    by_cases h : a = b
    · rw [(heq h).1]
      have hlt : p < obuf.length := by omega
      simp [List.getElem?_set, hlt]
    · rw [hne h]; exact hv
  rw [fill_until_ok a b bound p v hbound fuel
    ⟨heap.set b (obuf.set p v), p, p + 1, log ++ [Event.read p v, Event.write p v]⟩
    ibuf1 (obuf.set p v) rfl hi1 hv1 (by intro _; show p < p + 1; omega)
    (getElem?_set_self_some heap b obuf _ hb) (by simpa using hlen)
    (by show p + 1 ≤ bound; omega) (by show bound - (p + 1) < fuel; omega)]
  have hn : bound - p = (bound - (p + 1)) + 1 := by omega
  rw [hn]
  simp [paint, fill_events, List.range'_succ, List.set_set]

/-! ## The main loop -/

theorem main_loop_ok (a b sample_count n : Nat) (input0 : List α) (h1 : 1 ≤ n)
    (hn : n < 2 ^ 63) (hs : sample_count < 2 ^ 64 - 1) (hin : sample_count ≤ input0.length) :
    ∀ (fuel p : Nat) (heap : Heap α) (log : List (Event α)) (ibuf obuf : List α),
      p < sample_count → heap[a]? = some ibuf → (∀ j, p ≤ j → ibuf[j]? = input0[j]?) →
      heap[b]? = some obuf → sample_count ≤ obuf.length → sample_count < fuel + p →
      ∃ s1 obuf1,
        main_loop (some a) (some b) sample_count (n : Int) fuel ⟨heap, p, p, log⟩ = .ok s1
        ∧ s1.out_index = sample_count
        ∧ s1.heap = heap.set b obuf1
        ∧ obuf1.length = obuf.length
        ∧ (∀ j, obuf1[j]?
            = if p ≤ j ∧ j < sample_count then input0[src p n j]? else obuf[j]?)
        ∧ s1.log = log ++ ring_events input0 p n (sample_count - p) := by
  intro fuel
  induction fuel with
  | zero => intro p heap log ibuf obuf hp _ _ _ _ hfuel; omega
  | succ fuel ih =>
    intro p heap log ibuf obuf hp ha hi hb hlen hfuel
    have hplt : p < input0.length := by omega
    have hv0 : input0[p]? = some input0[p] := List.getElem?_eq_getElem hplt
    have hv : ibuf[p]? = some input0[p] := by rw [hi p (Nat.le_refl p)]; exact hv0
    rw [main_loop]
    simp only
    rw [if_pos hp]
    by_cases htail : sample_count < p + n
    · -- the rest of the buffer is filled and the loop is left
      obtain ⟨s1, hc, hp1, hf⟩ := copy_then_fill a b sample_count p input0[p] (by omega)
        fuel heap log ibuf obuf ha hv hb hp hlen (by omega)
      rw [hc]
      simp only
      rw [hp1, (tail_test_iff sample_count p n h1 hn hs (by omega)).2 htail]
      simp only [if_true]
      refine ⟨_, paint obuf p (sample_count - p) input0[p], hf, rfl, rfl,
        length_paint _ _ _ _, ?_, ?_⟩
      · intro j
        rw [paint_ringed input0 obuf p n (sample_count - p) input0[p] hv0 (by omega)
          (by omega) j]
        have e : p + (sample_count - p) = sample_count := by omega
        rw [e]
      · show log ++ _ = log ++ _
        rw [ring_events_short input0 p n (sample_count - p) input0[p] hv0 (by omega)]
    · -- a full run of `n` copies, then the input cursor moves on
      have hnt : tail_test sample_count p (n : Int) = false := by
        cases h : tail_test sample_count p (n : Int)
        · rfl
        · exact absurd ((tail_test_iff sample_count p n h1 hn hs (by omega)).1 h) htail
      obtain ⟨s1, hc, hp1, hf⟩ := copy_then_fill a b (p + n) p input0[p] (by omega)
        fuel heap log ibuf obuf ha hv hb (by omega) (by omega) (by omega)
      rw [hc]
      simp only
      have hu : uadd p n = p + n := uadd_eq p n (by omega)
      rw [hp1, hnt, to_ulong_natCast n (by omega), hu, hf]
      simp only [Bool.false_eq_true, if_false, Nat.add_sub_cancel_left, hu]
      by_cases hend : p + n ≥ sample_count
      · rw [if_pos hend]
        have e : sample_count - p = n := by omega
        refine ⟨_, paint obuf p n input0[p], rfl, by show p + n = sample_count; omega, rfl,
          length_paint _ _ _ _, ?_, ?_⟩
        · intro j
          rw [paint_ringed input0 obuf p n n input0[p] hv0 (Nat.le_refl n) (by omega) j]
          have e2 : p + n = sample_count := by omega
          rw [e2]
        · show log ++ _ = log ++ _
          rw [e, ring_events_short input0 p n n input0[p] hv0 (Nat.le_refl n)]
      · rw [if_neg hend]
        obtain ⟨ibuf1, hi1, hne, heq⟩ :=
          input_after_set heap a b ibuf obuf (paint obuf p n input0[p]) ha hb
        have hi2 : ∀ j, p + n ≤ j → ibuf1[j]? = input0[j]? := by
          intro j hj
          by_cases h : a = b
          · obtain ⟨e1, e2⟩ := heq h
            rw [e1, getElem?_paint, if_neg (by omega), ← e2]
            exact hi j (by omega)
          · rw [hne h]; exact hi j (by omega)
        obtain ⟨s2, obuf2, hm, hout, hheap, hlen2, hget, hlog⟩ :=
          ih (p + n) (heap.set b (paint obuf p n input0[p]))
            (log ++ fill_events p input0[p] p n) ibuf1 (paint obuf p n input0[p])
            (by omega) hi1 hi2 (getElem?_set_self_some heap b obuf _ hb)
            (by rw [length_paint]; exact hlen) (by omega)
        refine ⟨s2, obuf2, hm, hout, ?_, ?_, ?_, ?_⟩
        · rw [hheap, List.set_set]
        · rw [hlen2, length_paint]
        · intro j
          rw [hget j]
          by_cases hj : p + n ≤ j ∧ j < sample_count
          · rw [if_pos hj, if_pos (by omega), src_shift p n j (by omega) hj.1]
          · rw [if_neg hj, paint_ringed input0 obuf p n n input0[p] hv0 (Nat.le_refl n)
              (by omega) j]
            by_cases hj2 : p ≤ j ∧ j < p + n
            · rw [if_pos hj2, if_pos (by omega)]
            · rw [if_neg hj2, if_neg (by omega)]
        · rw [hlog, ring_events_split input0 p n (sample_count - p) (by omega) (by omega),
            ring_events_short input0 p n n input0[p] hv0 (Nat.le_refl n), List.append_assoc]
          have e : sample_count - (p + n) = sample_count - p - n := by omega
          rw [e]

/-! ## The whole call -/

theorem LIMIT_BETWEEN_5_AND_200_bounds (x : Int) :
    5 ≤ LIMIT_BETWEEN_5_AND_200 x ∧ LIMIT_BETWEEN_5_AND_200 x ≤ 200 := by
  unfold LIMIT_BETWEEN_5_AND_200
  split_ifs <;> omega

theorem copies_bounds (ringer : Ringer) : 5 ≤ copies ringer ∧ copies ringer ≤ 200 := by
  have h := LIMIT_BETWEEN_5_AND_200_bounds ringer.copy_count
  unfold copies
  omega

theorem copies_cast (ringer : Ringer) :
    ((copies ringer : Nat) : Int) = LIMIT_BETWEEN_5_AND_200 ringer.copy_count := by
  have h := LIMIT_BETWEEN_5_AND_200_bounds ringer.copy_count
  unfold copies
  omega

theorem run_Ringer_ok (fuel sample_count a b : Nat) (ringer : Ringer) (heap : Heap α)
    (input output : List α) (hc : ValidCall ringer sample_count heap a b input output)
    (hfuel : sample_count < fuel) :
    ∃ s1 output1,
      run_Ringer fuel (some ringer) sample_count heap = .ok (Status.completed, s1)
      ∧ s1.out_index = sample_count
      ∧ s1.heap = heap.set b output1
      ∧ output1.length = output.length
      ∧ (∀ j, output1[j]?
          = if j < sample_count then input[copies ringer * (j / copies ringer)]?
            else output[j]?)
      ∧ s1.log = ring_events input 0 (copies ringer) sample_count := by
  have hb := copies_bounds ringer
  obtain ⟨s1, output1, hm, hout, hheap, hlen, hget, hlog⟩ :=
    main_loop_ok a b sample_count (copies ringer) input (by omega) (by omega) hc.count_lt
      hc.input_len fuel 0 heap [] input output (by have := hc.count_gt; omega) hc.input_at
      (fun _ _ => rfl) hc.output_at hc.output_len (by omega)
  refine ⟨s1, output1, ?_, hout, hheap, hlen, ?_, ?_⟩
  · unfold run_Ringer
    simp only
    rw [if_neg (by have := hc.count_gt; omega), hc.Input_eq, hc.Output_eq, ← copies_cast, hm]
  · intro j
    rw [hget j]
    simp [src]
  · simpa using hlog

/-! ## The test driver -/

theorem print_sample_ok (a : Nat) (s : State α) (ibuf : List α) (v : α)
    (ha : s.heap[a]? = some ibuf) (hv : ibuf[s.in_index]? = some v) :
    UnitTest.print_sample (some a) s = .ok
      { s with log := s.log ++ [Event.read s.in_index v, Event.fprintf_sample v] } := by
  simp [UnitTest.print_sample, load_ok _ _ _ _ _ ha hv]

theorem test_fill_until_ok (a b bound p : Nat) (v : α) (hbound : bound < 2 ^ 64) :
    ∀ (fuel : Nat) (s : State α) (ibuf obuf : List α),
      s.in_index = p → s.heap[a]? = some ibuf → ibuf[p]? = some v →
      (a = b → p < s.out_index) → s.heap[b]? = some obuf → bound ≤ obuf.length →
      s.out_index ≤ bound → bound - s.out_index < fuel →
      UnitTest.fill_until (some a) (some b) bound fuel s = .ok
        { heap := s.heap.set b (paint obuf s.out_index (bound - s.out_index) v)
          in_index := p
          out_index := bound
          log := s.log ++ test_fill_events p v s.out_index (bound - s.out_index) } := by
  intro fuel
  induction fuel with
  | zero => intro s ibuf obuf _ _ _ _ _ _ _ hfuel; omega
  | succ fuel ih =>
    intro s ibuf obuf hp ha hv hab hb hlen hle hfuel
    rw [UnitTest.fill_until]
    by_cases hlt : s.out_index < bound
    · rw [if_pos hlt, print_sample_ok a s ibuf v ha (hp ▸ hv)]
      simp only
      rw [copy_sample_ok a b
        ⟨s.heap, s.in_index, s.out_index,
          s.log ++ [Event.read s.in_index v, Event.fprintf_sample v]⟩
        ibuf obuf v ha (hp ▸ hv) hb (by show s.out_index < _; omega)]
      simp only
      have hq1 : uadd s.out_index 1 = s.out_index + 1 := uadd_eq _ _ (by omega)
      obtain ⟨ibuf1, hi1, hne, heq⟩ :=
        input_after_set s.heap a b ibuf obuf (obuf.set s.out_index v) ha hb
      have hv1 : ibuf1[p]? = some v := by
        by_cases h : a = b
        · obtain ⟨e1, e2⟩ := heq h
          have hpq := hab h
          rw [e1, List.getElem?_set_ne (by omega), ← e2]
          exact hv
        · rw [hne h]; exact hv
      rw [hq1]
      rw [ih ⟨s.heap.set b (obuf.set s.out_index v), s.in_index, s.out_index + 1,
          s.log ++ [Event.read s.in_index v, Event.fprintf_sample v]
            ++ [Event.read s.in_index v, Event.write s.out_index v]⟩
        ibuf1 (obuf.set s.out_index v) hp hi1 hv1
        (by intro h; have := hab h; show p < s.out_index + 1; omega)
        (getElem?_set_self_some s.heap b obuf _ hb) (by simpa using hlen)
        (by show s.out_index + 1 ≤ bound; omega)
        (by show bound - (s.out_index + 1) < fuel; omega)]
      have hn : bound - s.out_index = (bound - (s.out_index + 1)) + 1 := by omega
      rw [hn]
      simp [paint, test_fill_events, List.range'_succ, List.set_set, hp]
    · have h0 : bound - s.out_index = 0 := by omega
      have h1 : s.out_index = bound := by omega
      rw [if_neg hlt, h0]
      simp [paint, test_fill_events, set_eq_self _ _ _ hb, ← hp, ← h1]

theorem test_copy_then_fill (a b bound p : Nat) (v : α) (hbound : bound < 2 ^ 64)
    (fuel : Nat) (heap : Heap α) (log : List (Event α)) (ibuf obuf : List α)
    (ha : heap[a]? = some ibuf) (hv : ibuf[p]? = some v) (hb : heap[b]? = some obuf)
    (hp : p < bound) (hlen : bound ≤ obuf.length) (hfuel : bound - p ≤ fuel) :
    ∃ s0 s1, copy_sample (some a) (some b) ⟨heap, p, p, log⟩ = .ok s0
      ∧ UnitTest.print_sample (some a) s0 = .ok s1 ∧ s1.in_index = p
      ∧ UnitTest.fill_until (some a) (some b) bound fuel s1 = .ok
        ⟨heap.set b (paint obuf p (bound - p) v), p, bound,
          log ++ [Event.read p v, Event.write p v, Event.read p v, Event.fprintf_sample v]
            ++ test_fill_events p v (p + 1) (bound - (p + 1))⟩ := by
  obtain ⟨ibuf1, hi1, hne, heq⟩ := input_after_set heap a b ibuf obuf (obuf.set p v) ha hb
  have hv1 : ibuf1[p]? = some v := by
    by_cases h : a = b
    · rw [(heq h).1]
      have hlt : p < obuf.length := by omega
      simp [List.getElem?_set, hlt]
    · rw [hne h]; exact hv
  refine ⟨_, _,
    copy_sample_ok a b ⟨heap, p, p, log⟩ ibuf obuf v ha hv hb (by show p < _; omega),
    print_sample_ok a _ ibuf1 v hi1 hv1, rfl, ?_⟩
  simp only
  rw [uadd_eq p 1 (by omega)]
  rw [test_fill_until_ok a b bound p v hbound fuel
    ⟨heap.set b (obuf.set p v), p, p + 1,
      log ++ [Event.read p v, Event.write p v] ++ [Event.read p v, Event.fprintf_sample v]⟩
    ibuf1 (obuf.set p v) rfl hi1 hv1 (by intro _; show p < p + 1; omega)
    (getElem?_set_self_some heap b obuf _ hb) (by simpa using hlen)
    (by show p + 1 ≤ bound; omega) (by show bound - (p + 1) < fuel; omega)]
  have hn : bound - p = (bound - (p + 1)) + 1 := by omega
  rw [hn]
  simp [paint, List.set_set]

theorem test_ring_events_short (input0 : List α) (p c m : Nat) (v : α)
    (hv : input0[p]? = some v) (hm : m ≤ c) (hm0 : 0 < m) :
    test_ring_events input0 p c m
      = [Event.read p v, Event.write p v, Event.read p v, Event.fprintf_sample v]
        ++ test_fill_events p v (p + 1) (m - 1) := by
  unfold test_ring_events test_fill_events
  have h : List.range' p m = p :: List.range' (p + 1) (m - 1) := by
    have e : m = (m - 1) + 1 := by omega
    rw [e, List.range'_succ]
    simp
  rw [h, List.flatMap_cons]
  congr 1
  · unfold test_ring_event
    rw [src_eq_start p c p (Nat.le_refl p) (by omega), hv]
    simp
  · apply List.flatMap_congr
    intro j hj
    rw [List.mem_range'_1] at hj
    unfold test_ring_event
    rw [src_eq_start p c j (by omega) (by omega), hv]
    simp only
    rw [if_neg (by omega)]

theorem test_ring_events_split (input0 : List α) (p c m : Nat) (hc : 0 < c) (hm : c ≤ m) :
    test_ring_events input0 p c m
      = test_ring_events input0 p c c ++ test_ring_events input0 (p + c) c (m - c) := by
  unfold test_ring_events
  have h : List.range' p m = List.range' p c ++ List.range' (p + c) (m - c) := by
    have := List.range'_append p c (m - c) 1
    simp only [Nat.one_mul] at this
    rw [this]
    congr 1
    omega
  rw [h, List.flatMap_append]
  congr 1
  apply List.flatMap_congr
  intro j hj
  rw [List.mem_range'_1] at hj
  unfold test_ring_event
  rw [src_shift p c j hc hj.1]

theorem test_main_loop_ok (a b sample_count n : Nat) (input0 : List α) (h1 : 1 ≤ n)
    (hn : n < 2 ^ 63) (hs : sample_count < 2 ^ 64 - 1) (hin : sample_count ≤ input0.length) :
    ∀ (fuel p : Nat) (heap : Heap α) (log : List (Event α)) (ibuf obuf : List α),
      p < sample_count → heap[a]? = some ibuf → (∀ j, p ≤ j → ibuf[j]? = input0[j]?) →
      heap[b]? = some obuf → sample_count ≤ obuf.length → sample_count < fuel + p →
      ∃ s1 obuf1,
        UnitTest.main_loop (some a) (some b) sample_count (n : Int) fuel ⟨heap, p, p, log⟩
          = .ok s1
        ∧ s1.out_index = sample_count
        ∧ s1.heap = heap.set b obuf1
        ∧ obuf1.length = obuf.length
        ∧ (∀ j, obuf1[j]?
            = if p ≤ j ∧ j < sample_count then input0[src p n j]? else obuf[j]?)
        ∧ s1.log = log ++ test_ring_events input0 p n (sample_count - p) := by
  intro fuel
  induction fuel with
  | zero => intro p heap log ibuf obuf hp _ _ _ _ hfuel; omega
  | succ fuel ih =>
    intro p heap log ibuf obuf hp ha hi hb hlen hfuel
    have hplt : p < input0.length := by omega
    have hv0 : input0[p]? = some input0[p] := List.getElem?_eq_getElem hplt
    have hv : ibuf[p]? = some input0[p] := by rw [hi p (Nat.le_refl p)]; exact hv0
    rw [UnitTest.main_loop]
    simp only
    rw [if_pos hp]
    by_cases htail : sample_count < p + n
    · obtain ⟨s0, s1, hc, hpr, hp1, hf⟩ :=
        test_copy_then_fill a b sample_count p input0[p] (by omega)
          fuel heap log ibuf obuf ha hv hb hp hlen (by omega)
      rw [hc]
      simp only
      rw [hpr]
      simp only
      rw [hp1, (tail_test_iff sample_count p n h1 hn hs (by omega)).2 htail]
      simp only [if_true]
      refine ⟨_, paint obuf p (sample_count - p) input0[p], hf, rfl, rfl,
        length_paint _ _ _ _, ?_, ?_⟩
      · intro j
        rw [paint_ringed input0 obuf p n (sample_count - p) input0[p] hv0 (by omega)
          (by omega) j]
        have e : p + (sample_count - p) = sample_count := by omega
        rw [e]
      · show log ++ _ ++ _ = log ++ _
        rw [test_ring_events_short input0 p n (sample_count - p) input0[p] hv0 (by omega)
          (by omega), List.append_assoc]
        have e : sample_count - (p + 1) = sample_count - p - 1 := by omega
        rw [e]
    · have hnt : tail_test sample_count p (n : Int) = false := by
        cases h : tail_test sample_count p (n : Int)
        · rfl
        · exact absurd ((tail_test_iff sample_count p n h1 hn hs (by omega)).1 h) htail
      obtain ⟨s0, s1, hc, hpr, hp1, hf⟩ :=
        test_copy_then_fill a b (p + n) p input0[p] (by omega)
          fuel heap log ibuf obuf ha hv hb (by omega) (by omega) (by omega)
      rw [hc]
      simp only
      rw [hpr]
      simp only
      have hu : uadd p n = p + n := uadd_eq p n (by omega)
      rw [hp1, hnt, to_ulong_natCast n (by omega), hu, hf]
      simp only [Bool.false_eq_true, if_false, Nat.add_sub_cancel_left, hu]
      have hlog1 : log ++ [Event.read p input0[p], Event.write p input0[p],
            Event.read p input0[p], Event.fprintf_sample input0[p]]
            ++ test_fill_events p input0[p] (p + 1) (p + n - (p + 1))
          = log ++ test_ring_events input0 p n n := by
        rw [test_ring_events_short input0 p n n input0[p] hv0 (Nat.le_refl n) (by omega),
          List.append_assoc]
        have e : p + n - (p + 1) = n - 1 := by omega
        rw [e]
      rw [hlog1]
      by_cases hend : p + n ≥ sample_count
      · rw [if_pos hend]
        have e : sample_count - p = n := by omega
        refine ⟨_, paint obuf p n input0[p], rfl, by show p + n = sample_count; omega, rfl,
          length_paint _ _ _ _, ?_, ?_⟩
        · intro j
          rw [paint_ringed input0 obuf p n n input0[p] hv0 (Nat.le_refl n) (by omega) j]
          have e2 : p + n = sample_count := by omega
          rw [e2]
        · show log ++ _ = log ++ _
          rw [e]
      · rw [if_neg hend]
        obtain ⟨ibuf1, hi1, hne, heq⟩ :=
          input_after_set heap a b ibuf obuf (paint obuf p n input0[p]) ha hb
        have hi2 : ∀ j, p + n ≤ j → ibuf1[j]? = input0[j]? := by
          intro j hj
          by_cases h : a = b
          · obtain ⟨e1, e2⟩ := heq h
            rw [e1, getElem?_paint, if_neg (by omega), ← e2]
            exact hi j (by omega)
          · rw [hne h]; exact hi j (by omega)
        obtain ⟨s2, obuf2, hm, hout, hheap, hlen2, hget, hlog⟩ :=
          ih (p + n) (heap.set b (paint obuf p n input0[p]))
            (log ++ test_ring_events input0 p n n) ibuf1 (paint obuf p n input0[p])
            (by omega) hi1 hi2 (getElem?_set_self_some heap b obuf _ hb)
            (by rw [length_paint]; exact hlen) (by omega)
        refine ⟨s2, obuf2, hm, hout, ?_, ?_, ?_, ?_⟩
        · rw [hheap, List.set_set]
        · rw [hlen2, length_paint]
        · intro j
          rw [hget j]
          by_cases hj : p + n ≤ j ∧ j < sample_count
          · rw [if_pos hj, if_pos (by omega), src_shift p n j (by omega) hj.1]
          · rw [if_neg hj, paint_ringed input0 obuf p n n input0[p] hv0 (Nat.le_refl n)
              (by omega) j]
            by_cases hj2 : p ≤ j ∧ j < p + n
            · rw [if_pos hj2, if_pos (by omega)]
            · rw [if_neg hj2, if_neg (by omega)]
        · rw [hlog, test_ring_events_split input0 p n (sample_count - p) (by omega) (by omega),
            List.append_assoc]
          have e : sample_count - (p + n) = sample_count - p - n := by omega
          rw [e]

theorem LIMIT_BETWEEN_5_AND_500_bounds (x : Int) :
    5 ≤ LIMIT_BETWEEN_5_AND_500 x ∧ LIMIT_BETWEEN_5_AND_500 x ≤ 500 := by
  unfold LIMIT_BETWEEN_5_AND_500
  split_ifs <;> omega

theorem test_copies_bounds (ringer : Ringer) :
    5 ≤ test_copies ringer ∧ test_copies ringer ≤ 500 := by
  have h := LIMIT_BETWEEN_5_AND_500_bounds ringer.copy_count
  unfold test_copies
  omega

theorem test_copies_cast (ringer : Ringer) :
    ((test_copies ringer : Nat) : Int) = LIMIT_BETWEEN_5_AND_500 ringer.copy_count := by
  have h := LIMIT_BETWEEN_5_AND_500_bounds ringer.copy_count
  unfold test_copies
  omega

theorem test_run_Ringer_ok (fuel sample_count a b : Nat) (ringer : Ringer) (heap : Heap α)
    (input output : List α) (hc : ValidCall ringer sample_count heap a b input output)
    (hfuel : sample_count < fuel) :
    ∃ s1 output1,
      UnitTest.run_Ringer fuel true (some ringer) sample_count heap
        = .ok (Status.completed, s1)
      ∧ s1.out_index = sample_count
      ∧ s1.heap = heap.set b output1
      ∧ output1.length = output.length
      ∧ (∀ j, output1[j]?
          = if j < sample_count then input[test_copies ringer * (j / test_copies ringer)]?
            else output[j]?)
      ∧ s1.log = Event.fprintf_count sample_count
          :: test_ring_events input 0 (test_copies ringer) sample_count := by
  have hb := test_copies_bounds ringer
  obtain ⟨s1, output1, hm, hout, hheap, hlen, hget, hlog⟩ :=
    test_main_loop_ok a b sample_count (test_copies ringer) input (by omega) (by omega)
      hc.count_lt hc.input_len fuel 0 heap [Event.fprintf_count sample_count] input output
      (by have := hc.count_gt; omega) hc.input_at
      (fun _ _ => rfl) hc.output_at hc.output_len (by omega)
  refine ⟨s1, output1, ?_, hout, hheap, hlen, ?_, ?_⟩
  · unfold UnitTest.run_Ringer
    simp only
    rw [if_neg (by have := hc.count_gt; omega), hc.Input_eq, hc.Output_eq, ← test_copies_cast]
    simp only [Bool.not_true, Bool.false_eq_true, if_false]
    rw [hm]
  · intro j
    rw [hget j]
    simp [src]
  · simpa using hlog

/-! ## Reading the events of a run -/

theorem writes_append (l1 l2 : List (Event α)) : writes (l1 ++ l2) = writes l1 ++ writes l2 := by
  induction l1 with
  | nil => rfl
  | cons e l ih => cases e <;> simp [writes, ih]

theorem printed_append (l1 l2 : List (Event α)) :
    printed (l1 ++ l2) = printed l1 ++ printed l2 := by
  induction l1 with
  | nil => rfl
  | cons e l ih => cases e <;> simp [printed, ih]

theorem writes_flatMap (f : Nat → List (Event α)) (l : List Nat) :
    writes (l.flatMap f) = l.flatMap fun j => writes (f j) := by
  induction l with
  | nil => rfl
  | cons j l ih => simp [List.flatMap_cons, writes_append, ih]

theorem printed_flatMap (f : Nat → List (Event α)) (l : List Nat) :
    printed (l.flatMap f) = l.flatMap fun j => printed (f j) := by
  induction l with
  | nil => rfl
  | cons j l ih => simp [List.flatMap_cons, printed_append, ih]

theorem writes_ring_event (input0 : List α) (p c j : Nat) :
    writes (ring_event input0 p c j) = (input0[src p c j]?).toList.map fun v => (j, v) := by
  unfold ring_event
  cases input0[src p c j]? <;> simp [writes]

theorem writes_test_ring_event (input0 : List α) (p c j : Nat) :
    writes (test_ring_event input0 p c j)
      = (input0[src p c j]?).toList.map fun v => (j, v) := by
  unfold test_ring_event
  cases input0[src p c j]? with
  | none => simp [writes]
  | some v => by_cases h : src p c j = j <;> simp [writes, h]

theorem printed_test_ring_event (input0 : List α) (p c j : Nat) :
    printed (test_ring_event input0 p c j) = (input0[src p c j]?).toList := by
  unfold test_ring_event
  cases input0[src p c j]? with
  | none => simp [printed]
  | some v => by_cases h : src p c j = j <;> simp [printed, h]

theorem flatMap_option_take (f : Nat → Option α) (l : List α) :
    ∀ m, m ≤ l.length → (∀ j, j < m → f j = l[j]?) →
      (List.range' 0 m).flatMap (fun j => (f j).toList) = l.take m := by
  intro m
  induction m with
  | zero => intro _ _; simp
  | succ m ih =>
    intro hm hf
    rw [List.range'_1_concat, List.flatMap_append, ih (by omega) (fun j hj => hf j (by omega)),
      List.take_succ]
    simp [hf m (by omega)]

theorem flatMap_option_index (f : Nat → Option α) (l : List α) :
    ∀ m, m ≤ l.length → (∀ j, j < m → f j = l[j]?) →
      ((List.range' 0 m).flatMap fun j => (f j).toList.map fun v => (j, v)).map Prod.fst
        = List.range m := by
  intro m
  induction m with
  | zero => intro _ _; simp
  | succ m ih =>
    intro hm hf
    have hlt : m < l.length := by omega
    rw [List.range'_1_concat, List.flatMap_append, List.map_append,
      ih (by omega) (fun j hj => hf j (by omega)), List.range_succ]
    simp [hf m (by omega), List.getElem?_eq_getElem hlt]

theorem flatMap_option_value (f : Nat → Option α) (l : List α)
    (m : Nat) (hm : m ≤ l.length) (hf : ∀ j, j < m → f j = l[j]?) :
    ((List.range' 0 m).flatMap fun j => (f j).toList.map fun v => (j, v)).map Prod.snd
      = l.take m := by
  rw [List.map_flatMap, ← flatMap_option_take f l m hm hf]
  apply List.flatMap_congr
  intro j _
  cases f j <;> simp

theorem stride_lt (c j m : Nat) (hj : j < m) : c * (j / c) < m :=
  Nat.lt_of_le_of_lt (Nat.mul_div_le j c) hj

theorem output_of_run (sample_count c : Nat) (input output output1 : List α)
    (hin : sample_count ≤ input.length)
    (hget : ∀ j, output1[j]?
      = if j < sample_count then input[c * (j / c)]? else output[j]?)
    (j : Nat) (hj : j < sample_count) :
    ∃ v, input[c * (j / c)]? = some v ∧ output1[j]? = some v := by
  have hlt : c * (j / c) < input.length := by
    have := stride_lt c j sample_count hj
    omega
  refine ⟨input[c * (j / c)], List.getElem?_eq_getElem hlt, ?_⟩
  rw [hget j, if_pos hj, List.getElem?_eq_getElem hlt]

/-! ## The claims -/

/-- C1: for a call with `sample_count > 1` the run completes and every output
slot `j < sample_count` holds the input sample at index `c * (j / c)`, where
`c` is the copy count clamped into `[5, 200]`. -/
theorem C1_output_repeats_strided_input (fuel sample_count a b : Nat) (ringer : Ringer)
    (heap : Heap α) (input output : List α)
    (hc : ValidCall ringer sample_count heap a b input output)
    (hfuel : sample_count < fuel) :
    ∃ s1 output1,
      run_Ringer fuel (some ringer) sample_count heap = .ok (Status.completed, s1)
      ∧ s1.heap[b]? = some output1
      ∧ ((copies ringer : Nat) : Int) = LIMIT_BETWEEN_5_AND_200 ringer.copy_count
      ∧ 5 ≤ copies ringer ∧ copies ringer ≤ 200
      ∧ ∀ j, j < sample_count →
          ∃ v, input[copies ringer * (j / copies ringer)]? = some v ∧ output1[j]? = some v := by
  obtain ⟨s1, output1, hrun, _, hheap, _, hget, _⟩ :=
    run_Ringer_ok fuel sample_count a b ringer heap input output hc hfuel
  refine ⟨s1, output1, hrun, ?_, copies_cast ringer, (copies_bounds ringer).1,
    (copies_bounds ringer).2, ?_⟩
  · rw [hheap]
    exact getElem?_set_self_some heap b output output1 hc.output_at
  · intro j hj
    exact output_of_run sample_count (copies ringer) input output output1 hc.input_len hget j hj

/-- Witness for C1: seven samples, copy count 3 (clamped to 5), separate
buffers. -/
theorem C1_output_repeats_strided_input_witness :
    ValidCall ⟨3, some 0, some 1⟩ 7 [[0, 1, 2, 3, 4, 5, 6], [9, 9, 9, 9, 9, 9, 9]] 0 1
        [(0 : Int), 1, 2, 3, 4, 5, 6] [9, 9, 9, 9, 9, 9, 9]
      ∧ ∃ s1 output1,
        run_Ringer 8 (some ⟨3, some 0, some 1⟩) 7
            [[(0 : Int), 1, 2, 3, 4, 5, 6], [9, 9, 9, 9, 9, 9, 9]]
          = .ok (Status.completed, s1)
        ∧ s1.heap[1]? = some output1
        ∧ ((copies ⟨3, some 0, some 1⟩ : Nat) : Int) = LIMIT_BETWEEN_5_AND_200 3
        ∧ 5 ≤ copies ⟨3, some 0, some 1⟩ ∧ copies ⟨3, some 0, some 1⟩ ≤ 200
        ∧ ∀ j, j < 7 →
            ∃ v, [(0 : Int), 1, 2, 3, 4, 5, 6][copies ⟨3, some 0, some 1⟩
                * (j / copies ⟨3, some 0, some 1⟩)]? = some v
              ∧ output1[j]? = some v :=
  have hc : ValidCall ⟨3, some 0, some 1⟩ 7
      [[(0 : Int), 1, 2, 3, 4, 5, 6], [9, 9, 9, 9, 9, 9, 9]] 0 1
      [(0 : Int), 1, 2, 3, 4, 5, 6] [9, 9, 9, 9, 9, 9, 9] :=
    ⟨rfl, rfl, rfl, rfl, by decide, by decide, by decide, by decide⟩
  ⟨hc, C1_output_repeats_strided_input 8 7 0 1 _ _ _ _ hc (by decide)⟩

/-- C2: for a call with `sample_count > 1` the writes of `run_Ringer` go to
the indices `0, 1, ..., sample_count - 1`, once each and in this order, the
values written are the final output read in order, and `out_index` ends at
`sample_count`; the sample lines printed by the test driver are
`sample_count` in number and equal the driver's final output read in order. -/
theorem C2_each_slot_written_once_in_order (fuel sample_count a b : Nat) (ringer : Ringer)
    (heap : Heap α) (input output : List α)
    (hc : ValidCall ringer sample_count heap a b input output)
    (hfuel : sample_count < fuel) :
    (∃ s1 output1,
      run_Ringer fuel (some ringer) sample_count heap = .ok (Status.completed, s1)
      ∧ s1.heap[b]? = some output1
      ∧ (writes s1.log).map Prod.fst = List.range sample_count
      ∧ (writes s1.log).map Prod.snd = output1.take sample_count
      ∧ s1.out_index = sample_count)
    ∧ (∃ t1 output2,
      UnitTest.run_Ringer fuel true (some ringer) sample_count heap
        = .ok (Status.completed, t1)
      ∧ t1.heap[b]? = some output2
      ∧ (printed t1.log).length = sample_count
      ∧ printed t1.log = output2.take sample_count
      ∧ (writes t1.log).map Prod.fst = List.range sample_count
      ∧ t1.out_index = sample_count) := by
  constructor
  · obtain ⟨s1, output1, hrun, hout, hheap, hlen, hget, hlog⟩ :=
      run_Ringer_ok fuel sample_count a b ringer heap input output hc hfuel
    have hm : sample_count ≤ output1.length := by rw [hlen]; exact hc.output_len
    have hf : ∀ j, j < sample_count →
        input[src 0 (copies ringer) j]? = output1[j]? := by
      intro j hj
      rw [hget j, if_pos hj]
      simp [src]
    have hw : writes s1.log = (List.range' 0 sample_count).flatMap fun j =>
        (input[src 0 (copies ringer) j]?).toList.map fun v => (j, v) := by
      rw [hlog, ring_events, writes_flatMap]
      exact List.flatMap_congr fun j _ => writes_ring_event input 0 (copies ringer) j
    refine ⟨s1, output1, hrun, ?_, ?_, ?_, hout⟩
    · rw [hheap]
      exact getElem?_set_self_some heap b output output1 hc.output_at
    · rw [hw]
      exact flatMap_option_index _ output1 sample_count hm hf
    · rw [hw]
      exact flatMap_option_value _ output1 sample_count hm hf
  · obtain ⟨t1, output2, hrun, hout, hheap, hlen, hget, hlog⟩ :=
      test_run_Ringer_ok fuel sample_count a b ringer heap input output hc hfuel
    have hm : sample_count ≤ output2.length := by rw [hlen]; exact hc.output_len
    have hf : ∀ j, j < sample_count →
        input[src 0 (test_copies ringer) j]? = output2[j]? := by
      intro j hj
      rw [hget j, if_pos hj]
      simp [src]
    have hp : printed t1.log = output2.take sample_count := by
      rw [hlog]
      show printed (test_ring_events input 0 (test_copies ringer) sample_count) = _
      rw [test_ring_events, printed_flatMap,
        ← flatMap_option_take (fun j => input[src 0 (test_copies ringer) j]?) output2
          sample_count hm hf]
      exact List.flatMap_congr fun j _ =>
        printed_test_ring_event input 0 (test_copies ringer) j
    have hw : writes t1.log = (List.range' 0 sample_count).flatMap fun j =>
        (input[src 0 (test_copies ringer) j]?).toList.map fun v => (j, v) := by
      rw [hlog]
      show writes (test_ring_events input 0 (test_copies ringer) sample_count) = _
      rw [test_ring_events, writes_flatMap]
      exact List.flatMap_congr fun j _ =>
        writes_test_ring_event input 0 (test_copies ringer) j
    refine ⟨t1, output2, hrun, ?_, ?_, hp, ?_, hout⟩
    · rw [hheap]
      exact getElem?_set_self_some heap b output output2 hc.output_at
    · rw [hp, List.length_take]
      omega
    · rw [hw]
      exact flatMap_option_index _ output2 sample_count hm hf

/-- Witness for C2: three samples, copy count 5, separate buffers. -/
theorem C2_each_slot_written_once_in_order_witness :
    ValidCall ⟨5, some 0, some 1⟩ 3 [[(0 : Int), 1, 2], [9, 9, 9]] 0 1 [0, 1, 2] [9, 9, 9]
      ∧ (∃ s1 output1,
        run_Ringer 4 (some ⟨5, some 0, some 1⟩) 3 [[(0 : Int), 1, 2], [9, 9, 9]]
          = .ok (Status.completed, s1)
        ∧ s1.heap[1]? = some output1
        ∧ (writes s1.log).map Prod.fst = List.range 3
        ∧ (writes s1.log).map Prod.snd = output1.take 3
        ∧ s1.out_index = 3)
      ∧ (∃ t1 output2,
        UnitTest.run_Ringer 4 true (some ⟨5, some 0, some 1⟩) 3
            [[(0 : Int), 1, 2], [9, 9, 9]]
          = .ok (Status.completed, t1)
        ∧ t1.heap[1]? = some output2
        ∧ (printed t1.log).length = 3
        ∧ printed t1.log = output2.take 3
        ∧ (writes t1.log).map Prod.fst = List.range 3
        ∧ t1.out_index = 3) :=
  have hc : ValidCall ⟨5, some 0, some 1⟩ 3 [[(0 : Int), 1, 2], [9, 9, 9]] 0 1
      [0, 1, 2] [9, 9, 9] :=
    ⟨rfl, rfl, rfl, rfl, by decide, by decide, by decide, by decide⟩
  ⟨hc, C2_each_slot_written_once_in_order 4 3 0 1 _ _ _ _ hc (by decide)⟩

/-- C3: a call with `sample_count ≤ 1` returns at once, whatever the handle,
the buffers and the fuel: no access is made and memory is as before. -/
theorem C3_insufficient_samples_no_write (fuel sample_count : Nat) (handle : Option Ringer)
    (heap : Heap α) (h : sample_count ≤ 1) :
    ∃ s1, run_Ringer fuel handle sample_count heap = .ok (Status.insufficient_samples, s1)
      ∧ s1.heap = heap ∧ s1.log = [] ∧ writes s1.log = [] := by
  refine ⟨⟨heap, 0, 0, []⟩, ?_, rfl, rfl, rfl⟩
  unfold run_Ringer
  simp only
  rw [if_pos h]

/-- Witness for C3: one sample. -/
theorem C3_insufficient_samples_no_write_witness :
    (1 : Nat) ≤ 1 ∧ ∃ s1, run_Ringer 0 (some ⟨5, some 0, some 1⟩) 1 [[(7 : Int)], [9]]
        = .ok (Status.insufficient_samples, s1)
      ∧ s1.heap = [[7], [9]] ∧ s1.log = [] ∧ writes s1.log = [] :=
  ⟨Nat.le_refl 1, C3_insufficient_samples_no_write 0 1 _ _ (Nat.le_refl 1)⟩

/-- C4, as stated, fails: with two samples and a NULL input port, or a NULL
output port, `run_Ringer` reports nothing and dereferences the NULL pointer in
`output[out_index++] = input[in_index]`. -/
theorem C4_null_buffer_is_dereferenced :
    run_Ringer 3 (some ⟨5, none, some 0⟩) 2 [[(1 : Int), 2]] = .error Err.null_pointer
    ∧ run_Ringer 3 (some ⟨5, some 0, none⟩) 2 [[(1 : Int), 2]] = .error Err.null_pointer :=
  ⟨rfl, rfl⟩

/-- C4, amended: for a call with `sample_count > 1` and a NULL plugin instance
`run_Ringer` reports the NULL instance and returns: no access is made and
memory is as before. -/
theorem C4_null_instance_no_access (fuel sample_count : Nat) (heap : Heap α)
    (h : 1 < sample_count) :
    ∃ s1, run_Ringer fuel none sample_count heap = .ok (Status.null_instance, s1)
      ∧ s1.heap = heap ∧ s1.log = [] ∧ reads s1.log = [] ∧ writes s1.log = [] := by
  refine ⟨⟨heap, 0, 0, []⟩, ?_, rfl, rfl, rfl, rfl⟩
  unfold run_Ringer
  simp only
  rw [if_neg (by omega)]

/-- Witness for the amended C4: two samples. -/
theorem C4_null_instance_no_access_witness :
    1 < 2 ∧ ∃ s1, run_Ringer 0 none 2 [[(1 : Int), 2], [9, 9]]
        = .ok (Status.null_instance, s1)
      ∧ s1.heap = [[1, 2], [9, 9]] ∧ s1.log = [] ∧ reads s1.log = [] ∧ writes s1.log = [] :=
  ⟨by decide, C4_null_instance_no_access 0 2 _ (by decide)⟩

/-- C5: `LIMIT_BETWEEN_5_AND_200(r)` is the value of `[5, 200]` nearest to `r`:
it is 5 below 5, 200 above 200 and `r` in between, it always lies in
`[5, 200]`, no value of `[5, 200]` is nearer to `r`, and it maps -10 to 5 and
9999 to 200. -/
theorem C5_clamp_is_nearest_in_range (r : Int) :
    (r < 5 → LIMIT_BETWEEN_5_AND_200 r = 5)
    ∧ (200 < r → LIMIT_BETWEEN_5_AND_200 r = 200)
    ∧ (5 ≤ r → r ≤ 200 → LIMIT_BETWEEN_5_AND_200 r = r)
    ∧ 5 ≤ LIMIT_BETWEEN_5_AND_200 r ∧ LIMIT_BETWEEN_5_AND_200 r ≤ 200
    ∧ (∀ y : Int, 5 ≤ y → y ≤ 200 → |LIMIT_BETWEEN_5_AND_200 r - r| ≤ |y - r|)
    ∧ LIMIT_BETWEEN_5_AND_200 (-10) = 5
    ∧ LIMIT_BETWEEN_5_AND_200 9999 = 200 := by
  refine ⟨?_, ?_, ?_, (LIMIT_BETWEEN_5_AND_200_bounds r).1,
    (LIMIT_BETWEEN_5_AND_200_bounds r).2, ?_, rfl, rfl⟩
  · intro h
    rw [LIMIT_BETWEEN_5_AND_200, if_pos h]
  · intro h
    rw [LIMIT_BETWEEN_5_AND_200, if_neg (by omega), if_pos h]
  · intro h1 h2
    rw [LIMIT_BETWEEN_5_AND_200, if_neg (by omega), if_neg (by omega)]
  · intro y h1 h2
    unfold LIMIT_BETWEEN_5_AND_200
    split_ifs
    · rw [abs_of_nonneg (by omega), abs_of_nonneg (by omega)]; omega
    · rw [abs_of_nonpos (by omega), abs_of_nonpos (by omega)]; omega
    · rw [sub_self, abs_zero]; exact abs_nonneg _

/-- C6: both clamps are idempotent. -/
theorem C6_clamp_idempotent (r : Int) :
    LIMIT_BETWEEN_5_AND_200 (LIMIT_BETWEEN_5_AND_200 r) = LIMIT_BETWEEN_5_AND_200 r
    ∧ LIMIT_BETWEEN_5_AND_500 (LIMIT_BETWEEN_5_AND_500 r) = LIMIT_BETWEEN_5_AND_500 r := by
  constructor
  · unfold LIMIT_BETWEEN_5_AND_200; split_ifs <;> omega
  · unfold LIMIT_BETWEEN_5_AND_500; split_ifs <;> omega

/-- C7: for a call with `sample_count > 1`, a cursor position `p` that is a
multiple of the clamped copy count `c` and has `p + c ≤ sample_count`, the
output slots `p, ..., p + c - 1` all hold `input[p]`; ten samples
`0, ..., 9` with copy count 5 give `0,0,0,0,0,5,5,5,5,5`. -/
theorem C7_full_run_holds_one_sample (fuel sample_count a b : Nat) (ringer : Ringer)
    (heap : Heap α) (input output : List α)
    (hc : ValidCall ringer sample_count heap a b input output)
    (hfuel : sample_count < fuel) :
    (∃ s1 output1,
      run_Ringer fuel (some ringer) sample_count heap = .ok (Status.completed, s1)
      ∧ s1.heap[b]? = some output1
      ∧ ∀ p k, copies ringer ∣ p → p + copies ringer ≤ sample_count → k < copies ringer →
          ∃ v, input[p]? = some v ∧ output1[p + k]? = some v)
    ∧ (run_Ringer 11 (some ⟨5, some 0, some 1⟩) 10
          [[(0 : Int), 1, 2, 3, 4, 5, 6, 7, 8, 9], [9, 9, 9, 9, 9, 9, 9, 9, 9, 9]]).map
        (fun r => r.2.heap)
      = .ok [[0, 1, 2, 3, 4, 5, 6, 7, 8, 9], [0, 0, 0, 0, 0, 5, 5, 5, 5, 5]] := by
  refine ⟨?_, rfl⟩
  obtain ⟨s1, output1, hrun, _, hheap, _, hget, _⟩ :=
    run_Ringer_ok fuel sample_count a b ringer heap input output hc hfuel
  refine ⟨s1, output1, hrun, ?_, ?_⟩
  · rw [hheap]
    exact getElem?_set_self_some heap b output output1 hc.output_at
  · intro p k hdvd hp hk
    obtain ⟨v, h1, h2⟩ := output_of_run sample_count (copies ringer) input output output1
      hc.input_len hget (p + k) (by omega)
    obtain ⟨q, rfl⟩ := hdvd
    have hpos : 0 < copies ringer := by have := (copies_bounds ringer).1; omega
    have e : (copies ringer * q + k) / copies ringer = q := by
      rw [Nat.mul_add_div hpos, Nat.div_eq_of_lt hk, Nat.add_zero]
    rw [e] at h1
    exact ⟨v, h1, h2⟩

/-- Witness for C7: ten samples `0, ..., 9`, copy count 5. -/
theorem C7_full_run_holds_one_sample_witness :
    ValidCall ⟨5, some 0, some 1⟩ 10
        [[(0 : Int), 1, 2, 3, 4, 5, 6, 7, 8, 9], [9, 9, 9, 9, 9, 9, 9, 9, 9, 9]] 0 1
        [0, 1, 2, 3, 4, 5, 6, 7, 8, 9] [9, 9, 9, 9, 9, 9, 9, 9, 9, 9]
      ∧ ∃ s1 output1,
        run_Ringer 11 (some ⟨5, some 0, some 1⟩) 10
            [[(0 : Int), 1, 2, 3, 4, 5, 6, 7, 8, 9], [9, 9, 9, 9, 9, 9, 9, 9, 9, 9]]
          = .ok (Status.completed, s1)
        ∧ s1.heap[1]? = some output1
        ∧ ∀ p k, copies ⟨5, some 0, some 1⟩ ∣ p → p + copies ⟨5, some 0, some 1⟩ ≤ 10 →
            k < copies ⟨5, some 0, some 1⟩ →
            ∃ v, [(0 : Int), 1, 2, 3, 4, 5, 6, 7, 8, 9][p]? = some v
              ∧ output1[p + k]? = some v :=
  have hc : ValidCall ⟨5, some 0, some 1⟩ 10
      [[(0 : Int), 1, 2, 3, 4, 5, 6, 7, 8, 9], [9, 9, 9, 9, 9, 9, 9, 9, 9, 9]] 0 1
      [0, 1, 2, 3, 4, 5, 6, 7, 8, 9] [9, 9, 9, 9, 9, 9, 9, 9, 9, 9] :=
    ⟨rfl, rfl, rfl, rfl, by decide, by decide, by decide, by decide⟩
  ⟨hc, (C7_full_run_holds_one_sample 11 10 0 1 _ _ _ _ hc (by decide)).1⟩

/-- C8: for a call with `sample_count > 1` and the cursor position `p`, a
multiple of the clamped copy count `c`, at which fewer than `c` input
positions remain, every output slot from `p` to `sample_count - 1` holds
`input[p]`, whatever the output buffer held before. -/
theorem C8_tail_holds_last_reachable_sample (fuel sample_count a b : Nat) (ringer : Ringer)
    (heap : Heap α) (input output : List α)
    (hc : ValidCall ringer sample_count heap a b input output)
    (hfuel : sample_count < fuel) :
    ∃ s1 output1,
      run_Ringer fuel (some ringer) sample_count heap = .ok (Status.completed, s1)
      ∧ s1.heap[b]? = some output1
      ∧ ∀ p, copies ringer ∣ p → 0 < sample_count - p → sample_count - p < copies ringer →
          ∀ j, p ≤ j → j < sample_count →
            ∃ v, input[p]? = some v ∧ output1[j]? = some v := by
  obtain ⟨s1, output1, hrun, _, hheap, _, hget, _⟩ :=
    run_Ringer_ok fuel sample_count a b ringer heap input output hc hfuel
  refine ⟨s1, output1, hrun, ?_, ?_⟩
  · rw [hheap]
    exact getElem?_set_self_some heap b output output1 hc.output_at
  · intro p hdvd _ hrem j hpj hj
    obtain ⟨v, h1, h2⟩ := output_of_run sample_count (copies ringer) input output output1
      hc.input_len hget j hj
    obtain ⟨q, rfl⟩ := hdvd
    have hpos : 0 < copies ringer := by have := (copies_bounds ringer).1; omega
    have e : j / copies ringer = q := by
      have hj2 : j = copies ringer * q + (j - copies ringer * q) := by omega
      rw [hj2, Nat.mul_add_div hpos, Nat.div_eq_of_lt (by omega), Nat.add_zero]
    rw [e] at h1
    exact ⟨v, h1, h2⟩

/-- Witness for C8: seven samples, copy count 5, so that the tail starts at 5. -/
theorem C8_tail_holds_last_reachable_sample_witness :
    ValidCall ⟨5, some 0, some 1⟩ 7
        [[(0 : Int), 1, 2, 3, 4, 5, 6], [9, 9, 9, 9, 9, 9, 9]] 0 1
        [0, 1, 2, 3, 4, 5, 6] [9, 9, 9, 9, 9, 9, 9]
      ∧ ∃ s1 output1,
        run_Ringer 8 (some ⟨5, some 0, some 1⟩) 7
            [[(0 : Int), 1, 2, 3, 4, 5, 6], [9, 9, 9, 9, 9, 9, 9]]
          = .ok (Status.completed, s1)
        ∧ s1.heap[1]? = some output1
        ∧ ∀ p, copies ⟨5, some 0, some 1⟩ ∣ p → 0 < 7 - p →
            7 - p < copies ⟨5, some 0, some 1⟩ →
            ∀ j, p ≤ j → j < 7 →
              ∃ v, [(0 : Int), 1, 2, 3, 4, 5, 6][p]? = some v ∧ output1[j]? = some v :=
  have hc : ValidCall ⟨5, some 0, some 1⟩ 7
      [[(0 : Int), 1, 2, 3, 4, 5, 6], [9, 9, 9, 9, 9, 9, 9]] 0 1
      [0, 1, 2, 3, 4, 5, 6] [9, 9, 9, 9, 9, 9, 9] :=
    ⟨rfl, rfl, rfl, rfl, by decide, by decide, by decide, by decide⟩
  ⟨hc, C8_tail_holds_last_reachable_sample 8 7 0 1 _ _ _ _ hc (by decide)⟩

/-- C9: for a call with `1 < sample_count ≤ c`, `c` the clamped copy count,
every output slot below `sample_count` holds `input[0]`; three samples
`0, 1, 2` with copy count 5 give `0, 0, 0`. -/
theorem C9_short_buffer_holds_first_sample (fuel sample_count a b : Nat) (ringer : Ringer)
    (heap : Heap α) (input output : List α)
    (hc : ValidCall ringer sample_count heap a b input output)
    (hfuel : sample_count < fuel) (hshort : sample_count ≤ copies ringer) :
    (∃ s1 output1,
      run_Ringer fuel (some ringer) sample_count heap = .ok (Status.completed, s1)
      ∧ s1.heap[b]? = some output1
      ∧ ∀ j, j < sample_count → ∃ v, input[0]? = some v ∧ output1[j]? = some v)
    ∧ (run_Ringer 4 (some ⟨5, some 0, some 1⟩) 3 [[(0 : Int), 1, 2], [9, 9, 9]]).map
        (fun r => r.2.heap)
      = .ok [[0, 1, 2], [0, 0, 0]] := by
  refine ⟨?_, rfl⟩
  obtain ⟨s1, output1, hrun, _, hheap, _, hget, _⟩ :=
    run_Ringer_ok fuel sample_count a b ringer heap input output hc hfuel
  refine ⟨s1, output1, hrun, ?_, ?_⟩
  · rw [hheap]
    exact getElem?_set_self_some heap b output output1 hc.output_at
  · intro j hj
    obtain ⟨v, h1, h2⟩ := output_of_run sample_count (copies ringer) input output output1
      hc.input_len hget j hj
    rw [Nat.div_eq_of_lt (by omega), Nat.mul_zero] at h1
    exact ⟨v, h1, h2⟩

/-- Witness for C9: three samples `0, 1, 2`, copy count 5. -/
theorem C9_short_buffer_holds_first_sample_witness :
    ValidCall ⟨5, some 0, some 1⟩ 3 [[(0 : Int), 1, 2], [9, 9, 9]] 0 1 [0, 1, 2] [9, 9, 9]
      ∧ 3 ≤ copies ⟨5, some 0, some 1⟩
      ∧ ∃ s1 output1,
        run_Ringer 4 (some ⟨5, some 0, some 1⟩) 3 [[(0 : Int), 1, 2], [9, 9, 9]]
          = .ok (Status.completed, s1)
        ∧ s1.heap[1]? = some output1
        ∧ ∀ j, j < 3 → ∃ v, [(0 : Int), 1, 2][0]? = some v ∧ output1[j]? = some v :=
  have hc : ValidCall ⟨5, some 0, some 1⟩ 3 [[(0 : Int), 1, 2], [9, 9, 9]] 0 1
      [0, 1, 2] [9, 9, 9] :=
    ⟨rfl, rfl, rfl, rfl, by decide, by decide, by decide, by decide⟩
  ⟨hc, by decide,
    (C9_short_buffer_holds_first_sample 4 3 0 1 _ _ _ _ hc (by decide) (by decide)).1⟩

/-- C10, as stated, fails: with seven samples `0, ..., 6` and copy count 3 the
output is not `0,0,0,3,3,3,6`. -/
theorem C10_copy_count_3_is_not_applied :
    (run_Ringer 8 (some ⟨3, some 0, some 1⟩) 7
        [[(0 : Int), 1, 2, 3, 4, 5, 6], [0, 0, 0, 0, 0, 0, 0]]).map (fun r => r.2.heap)
      ≠ .ok [[0, 1, 2, 3, 4, 5, 6], [0, 0, 0, 3, 3, 3, 6]] := by
  intro h
  have e : (run_Ringer 8 (some ⟨3, some 0, some 1⟩) 7
        [[(0 : Int), 1, 2, 3, 4, 5, 6], [0, 0, 0, 0, 0, 0, 0]]).map (fun r => r.2.heap)
      = .ok [[0, 1, 2, 3, 4, 5, 6], [0, 0, 0, 0, 0, 5, 5]] := rfl
  rw [e] at h
  have h2 := Except.ok.inj h
  revert h2
  decide

/-- C10, amended: with seven samples `0, ..., 6` and copy count 3, which the
clamp raises to 5, the run leaves `0,0,0,0,0,5,5` in the output, whatever the
seven output slots held before. -/
theorem C10_copy_count_3_runs_as_5 (x0 x1 x2 x3 x4 x5 x6 : Int) :
    LIMIT_BETWEEN_5_AND_200 3 = 5
    ∧ (run_Ringer 8 (some ⟨3, some 0, some 1⟩) 7
        [[(0 : Int), 1, 2, 3, 4, 5, 6], [x0, x1, x2, x3, x4, x5, x6]]).map (fun r => r.2.heap)
      = .ok [[0, 1, 2, 3, 4, 5, 6], [0, 0, 0, 0, 0, 5, 5]] :=
  ⟨rfl, rfl⟩

/-! ## Reads and writes of a run -/

theorem loads_append (l1 l2 : List (Event α)) : loads (l1 ++ l2) = loads l1 ++ loads l2 := by
  induction l1 with
  | nil => rfl
  | cons e l ih => cases e <;> simp [loads, ih]

theorem loads_flatMap (f : Nat → List (Event α)) (l : List Nat) :
    loads (l.flatMap f) = l.flatMap fun j => loads (f j) := by
  induction l with
  | nil => rfl
  | cons j l ih => simp [List.flatMap_cons, loads_append, ih]

theorem reads_eq_map_loads (l : List (Event α)) : reads l = (loads l).map Prod.fst := by
  induction l with
  | nil => rfl
  | cons e l ih => cases e <;> simp [reads, loads, ih]

theorem loads_ring_event (input0 : List α) (p c j : Nat) :
    loads (ring_event input0 p c j)
      = (input0[src p c j]?).toList.map fun v => (src p c j, v) := by
  unfold ring_event
  cases input0[src p c j]? <;> simp [loads]

theorem mem_loads_ring_events (input0 : List α) (p c m i : Nat) (v : α)
    (h : (i, v) ∈ loads (ring_events input0 p c m)) :
    ∃ j, p ≤ j ∧ j < p + m ∧ i = src p c j ∧ input0[i]? = some v := by
  rw [ring_events, loads_flatMap, List.mem_flatMap] at h
  obtain ⟨j, hj, hmem⟩ := h
  rw [List.mem_range'_1] at hj
  rw [loads_ring_event] at hmem
  cases hv : input0[src p c j]? with
  | none => rw [hv] at hmem; simp at hmem
  | some w =>
    rw [hv] at hmem
    simp at hmem
    obtain ⟨e1, e2⟩ := hmem
    exact ⟨j, hj.1, hj.2, e1, by rw [e1, e2]; exact hv⟩

theorem mem_writes_ring_events (input0 : List α) (p c m i : Nat) (v : α)
    (h : (i, v) ∈ writes (ring_events input0 p c m)) : p ≤ i ∧ i < p + m := by
  rw [ring_events, writes_flatMap, List.mem_flatMap] at h
  obtain ⟨j, hj, hmem⟩ := h
  rw [List.mem_range'_1] at hj
  rw [writes_ring_event] at hmem
  cases hv : input0[src p c j]? with
  | none => rw [hv] at hmem; simp at hmem
  | some w =>
    rw [hv] at hmem
    simp at hmem
    rw [hmem.1]
    exact hj

theorem src_zero (c j : Nat) : src 0 c j = c * (j / c) := by
  simp [src]

/-- C11: for a call with `sample_count > 1` the run completes, so no read of
`input` falls outside the buffer, and every index read is below
`sample_count` and holds a sample of the input. -/
theorem C11_reads_stay_below_sample_count (fuel sample_count a b : Nat) (ringer : Ringer)
    (heap : Heap α) (input output : List α)
    (hc : ValidCall ringer sample_count heap a b input output)
    (hfuel : sample_count < fuel) :
    ∃ s1,
      run_Ringer fuel (some ringer) sample_count heap = .ok (Status.completed, s1)
      ∧ run_Ringer fuel (some ringer) sample_count heap ≠ .error Err.out_of_bounds
      ∧ (∀ i, i ∈ reads s1.log → i < sample_count)
      ∧ (∀ i v, (i, v) ∈ loads s1.log → i < sample_count ∧ input[i]? = some v) := by
  obtain ⟨s1, output1, hrun, _, _, _, _, hlog⟩ :=
    run_Ringer_ok fuel sample_count a b ringer heap input output hc hfuel
  have hl : ∀ i v, (i, v) ∈ loads s1.log → i < sample_count ∧ input[i]? = some v := by
    intro i v h
    rw [hlog] at h
    obtain ⟨j, _, hj, e, hv⟩ := mem_loads_ring_events input 0 (copies ringer) sample_count i v h
    refine ⟨?_, hv⟩
    rw [e, src_zero]
    exact stride_lt (copies ringer) j sample_count (by omega)
  refine ⟨s1, hrun, ?_, ?_, hl⟩
  · rw [hrun]
    intro h
    cases h
  · intro i h
    rw [reads_eq_map_loads, List.mem_map] at h
    obtain ⟨⟨i1, v⟩, hmem, e⟩ := h
    simp only at e
    rw [← e]
    exact (hl i1 v hmem).1

/-- Witness for C11: three samples and copy count 200, far above the sample
count; the input buffer has exactly three samples. -/
theorem C11_reads_stay_below_sample_count_witness :
    ValidCall ⟨9999, some 0, some 1⟩ 3 [[(0 : Int), 1, 2], [9, 9, 9]] 0 1 [0, 1, 2] [9, 9, 9]
      ∧ ∃ s1,
        run_Ringer 4 (some ⟨9999, some 0, some 1⟩) 3 [[(0 : Int), 1, 2], [9, 9, 9]]
          = .ok (Status.completed, s1)
        ∧ run_Ringer 4 (some ⟨9999, some 0, some 1⟩) 3 [[(0 : Int), 1, 2], [9, 9, 9]]
          ≠ .error Err.out_of_bounds
        ∧ (∀ i, i ∈ reads s1.log → i < 3)
        ∧ (∀ i v, (i, v) ∈ loads s1.log → i < 3 ∧ [(0 : Int), 1, 2][i]? = some v) :=
  have hc : ValidCall ⟨9999, some 0, some 1⟩ 3 [[(0 : Int), 1, 2], [9, 9, 9]] 0 1
      [0, 1, 2] [9, 9, 9] :=
    ⟨rfl, rfl, rfl, rfl, by decide, by decide, by decide, by decide⟩
  ⟨hc, C11_reads_stay_below_sample_count 4 3 0 1 _ _ _ _ hc (by decide)⟩

theorem take_eq_of_getElem? (l1 l2 : List α) (n : Nat)
    (h : ∀ j, j < n → l1[j]? = l2[j]?) : l1.take n = l2.take n := by
  apply List.ext_getElem?
  intro j
  rw [List.getElem?_take, List.getElem?_take]
  by_cases hj : j < n
  · rw [if_pos hj, if_pos hj, h j hj]
  · rw [if_neg hj, if_neg hj]

theorem getElem?_of_take_eq (l1 l2 : List α) (n j : Nat) (h : l1.take n = l2.take n)
    (hj : j < n) : l1[j]? = l2[j]? := by
  rw [← List.getElem?_take_of_lt hj, h, List.getElem?_take_of_lt hj]

/-- C12: for a call with `sample_count > 1` every write of the run is at an
index below `sample_count`, the output buffer keeps its length and its
elements from `sample_count` on, and no other block of memory changes; a
call that is not executed (`sample_count ≤ 1` or a NULL instance) writes
nothing. -/
theorem C12_writes_stay_below_sample_count (fuel sample_count a b : Nat) (ringer : Ringer)
    (heap : Heap α) (input output : List α)
    (hc : ValidCall ringer sample_count heap a b input output)
    (hfuel : sample_count < fuel) :
    (∃ s1 output1,
      run_Ringer fuel (some ringer) sample_count heap = .ok (Status.completed, s1)
      ∧ s1.heap = heap.set b output1
      ∧ output1.length = output.length
      ∧ (∀ i v, (i, v) ∈ writes s1.log → i < sample_count)
      ∧ (∀ j, sample_count ≤ j → output1[j]? = output[j]?))
    ∧ ∀ (f n : Nat) (h : Option Ringer) (m : Heap α), n ≤ 1 ∨ h = none →
        ∃ st s, run_Ringer f h n m = .ok (st, s) ∧ s.heap = m ∧ writes s.log = [] := by
  constructor
  · obtain ⟨s1, output1, hrun, _, hheap, hlen, hget, hlog⟩ :=
      run_Ringer_ok fuel sample_count a b ringer heap input output hc hfuel
    refine ⟨s1, output1, hrun, hheap, hlen, ?_, ?_⟩
    · intro i v h
      rw [hlog] at h
      have := mem_writes_ring_events input 0 (copies ringer) sample_count i v h
      omega
    · intro j hj
      rw [hget j, if_neg (by omega)]
  · intro f n h m hcase
    unfold run_Ringer
    simp only
    by_cases hn : n ≤ 1
    · rw [if_pos hn]
      exact ⟨_, _, rfl, rfl, rfl⟩
    · rw [if_neg hn]
      rcases hcase with h1 | h1
      · exact absurd h1 hn
      · rw [h1]
        exact ⟨_, _, rfl, rfl, rfl⟩

/-- Witness for C12: seven samples, copy count 5, an output buffer of nine
slots. -/
theorem C12_writes_stay_below_sample_count_witness :
    ValidCall ⟨5, some 0, some 1⟩ 7
        [[(0 : Int), 1, 2, 3, 4, 5, 6], [9, 9, 9, 9, 9, 9, 9, 8, 7]] 0 1
        [0, 1, 2, 3, 4, 5, 6] [9, 9, 9, 9, 9, 9, 9, 8, 7]
      ∧ (∃ s1 output1,
        run_Ringer 8 (some ⟨5, some 0, some 1⟩) 7
            [[(0 : Int), 1, 2, 3, 4, 5, 6], [9, 9, 9, 9, 9, 9, 9, 8, 7]]
          = .ok (Status.completed, s1)
        ∧ s1.heap = [[(0 : Int), 1, 2, 3, 4, 5, 6], [9, 9, 9, 9, 9, 9, 9, 8, 7]].set 1 output1
        ∧ output1.length = [(9 : Int), 9, 9, 9, 9, 9, 9, 8, 7].length
        ∧ (∀ i v, (i, v) ∈ writes s1.log → i < 7)
        ∧ (∀ j, 7 ≤ j → output1[j]? = [(9 : Int), 9, 9, 9, 9, 9, 9, 8, 7][j]?)) :=
  have hc : ValidCall ⟨5, some 0, some 1⟩ 7
      [[(0 : Int), 1, 2, 3, 4, 5, 6], [9, 9, 9, 9, 9, 9, 9, 8, 7]] 0 1
      [0, 1, 2, 3, 4, 5, 6] [9, 9, 9, 9, 9, 9, 9, 8, 7] :=
    ⟨rfl, rfl, rfl, rfl, by decide, by decide, by decide, by decide⟩
  ⟨hc, (C12_writes_stay_below_sample_count 8 7 0 1 _ _ _ _ hc (by decide)).1⟩

/-- C13: two calls with the same `sample_count > 1`, the same copy count and
inputs that agree on their first `sample_count` samples end with outputs that
agree on their first `sample_count` samples, whatever the output buffers held
before and whatever the inputs hold from `sample_count` on. -/
theorem C13_same_input_gives_same_output (fuel1 fuel2 sample_count a1 b1 a2 b2 : Nat)
    (ringer1 ringer2 : Ringer) (heap1 heap2 : Heap α) (input1 output1 input2 output2 : List α)
    (hc1 : ValidCall ringer1 sample_count heap1 a1 b1 input1 output1)
    (hc2 : ValidCall ringer2 sample_count heap2 a2 b2 input2 output2)
    (hrep : ringer1.copy_count = ringer2.copy_count)
    (hin : input1.take sample_count = input2.take sample_count)
    (hfuel1 : sample_count < fuel1) (hfuel2 : sample_count < fuel2) :
    ∃ s1 s2 result1 result2,
      run_Ringer fuel1 (some ringer1) sample_count heap1 = .ok (Status.completed, s1)
      ∧ run_Ringer fuel2 (some ringer2) sample_count heap2 = .ok (Status.completed, s2)
      ∧ s1.heap[b1]? = some result1
      ∧ s2.heap[b2]? = some result2
      ∧ result1.take sample_count = result2.take sample_count := by
  obtain ⟨s1, result1, hrun1, _, hheap1, _, hget1, _⟩ :=
    run_Ringer_ok fuel1 sample_count a1 b1 ringer1 heap1 input1 output1 hc1 hfuel1
  obtain ⟨s2, result2, hrun2, _, hheap2, _, hget2, _⟩ :=
    run_Ringer_ok fuel2 sample_count a2 b2 ringer2 heap2 input2 output2 hc2 hfuel2
  have hcop : copies ringer1 = copies ringer2 := by unfold copies; rw [hrep]
  refine ⟨s1, s2, result1, result2, hrun1, hrun2, ?_, ?_, ?_⟩
  · rw [hheap1]
    exact getElem?_set_self_some heap1 b1 output1 result1 hc1.output_at
  · rw [hheap2]
    exact getElem?_set_self_some heap2 b2 output2 result2 hc2.output_at
  · apply take_eq_of_getElem?
    intro j hj
    rw [hget1 j, hget2 j, if_pos hj, if_pos hj, hcop]
    exact getElem?_of_take_eq input1 input2 sample_count _ hin
      (stride_lt (copies ringer2) j sample_count hj)

/-- Witness for C13: the same three leading input samples and copy count,
different output contents, different input tails, different port numbers. -/
theorem C13_same_input_gives_same_output_witness :
    ValidCall ⟨5, some 0, some 1⟩ 3 [[(0 : Int), 1, 2, 50], [9, 9, 9]] 0 1
        [0, 1, 2, 50] [9, 9, 9]
      ∧ ValidCall ⟨5, some 1, some 0⟩ 3 [[(4 : Int), 4, 4, 4], [0, 1, 2, 60, 70]] 1 0
        [0, 1, 2, 60, 70] [4, 4, 4, 4]
      ∧ ∃ s1 s2 result1 result2,
        run_Ringer 4 (some ⟨5, some 0, some 1⟩) 3 [[(0 : Int), 1, 2, 50], [9, 9, 9]]
          = .ok (Status.completed, s1)
        ∧ run_Ringer 5 (some ⟨5, some 1, some 0⟩) 3 [[(4 : Int), 4, 4, 4], [0, 1, 2, 60, 70]]
          = .ok (Status.completed, s2)
        ∧ s1.heap[1]? = some result1
        ∧ s2.heap[0]? = some result2
        ∧ result1.take 3 = result2.take 3 :=
  have hc1 : ValidCall ⟨5, some 0, some 1⟩ 3 [[(0 : Int), 1, 2, 50], [9, 9, 9]] 0 1
      [0, 1, 2, 50] [9, 9, 9] :=
    ⟨rfl, rfl, rfl, rfl, by decide, by decide, by decide, by decide⟩
  have hc2 : ValidCall ⟨5, some 1, some 0⟩ 3 [[(4 : Int), 4, 4, 4], [0, 1, 2, 60, 70]] 1 0
      [0, 1, 2, 60, 70] [4, 4, 4, 4] :=
    ⟨rfl, rfl, rfl, rfl, by decide, by decide, by decide, by decide⟩
  ⟨hc1, hc2, C13_same_input_gives_same_output 4 5 3 0 1 1 0 _ _ _ _ _ _ _ _ hc1 hc2 rfl
    rfl (by decide) (by decide)⟩

/-! ## Termination and the cursors of one pass -/

theorem load_not_out_of_fuel (heap : Heap α) (p : Option Nat) (i : Nat) :
    load heap p i ≠ .error Err.out_of_fuel := by
  unfold load
  intro h
  split at h
  · cases h
  · split at h
    · cases h
    · split at h <;> cases h

theorem store_not_out_of_fuel (heap : Heap α) (p : Option Nat) (i : Nat) (v : α) :
    store heap p i v ≠ .error Err.out_of_fuel := by
  unfold store
  intro h
  split at h
  · cases h
  · split at h
    · cases h
    · split at h <;> cases h

theorem copy_sample_not_out_of_fuel (i o : Option Nat) (s : State α) :
    copy_sample i o s ≠ .error Err.out_of_fuel := by
  unfold copy_sample
  intro h
  cases h1 : load s.heap i s.in_index with
  | error e =>
    rw [h1] at h
    simp only at h
    rw [Except.error.inj h] at h1
    exact load_not_out_of_fuel _ _ _ h1
  | ok v =>
    rw [h1] at h
    simp only at h
    cases h2 : store s.heap o s.out_index v with
    | error e =>
      rw [h2] at h
      simp only at h
      rw [Except.error.inj h] at h2
      exact store_not_out_of_fuel _ _ _ _ h2
    | ok heap1 =>
      rw [h2] at h
      cases h

theorem copy_sample_fields (i o : Option Nat) (s s1 : State α)
    (h : copy_sample i o s = .ok s1) :
    s1.in_index = s.in_index ∧ s1.out_index = uadd s.out_index 1 := by
  unfold copy_sample at h
  cases h1 : load s.heap i s.in_index with
  | error e => rw [h1] at h; cases h
  | ok v =>
    rw [h1] at h
    simp only at h
    cases h2 : store s.heap o s.out_index v with
    | error e => rw [h2] at h; cases h
    | ok heap1 =>
      rw [h2] at h
      simp only at h
      have e := Except.ok.inj h
      rw [← e]
      exact ⟨rfl, rfl⟩

theorem fill_until_in_index (i o : Option Nat) (bound : Nat) :
    ∀ (fuel : Nat) (s s2 : State α), fill_until i o bound fuel s = .ok s2 →
      s2.in_index = s.in_index := by
  intro fuel
  induction fuel with
  | zero => intro s s2 h; rw [fill_until] at h; cases h
  | succ fuel ih =>
    intro s s2 h
    rw [fill_until] at h
    by_cases hlt : s.out_index < bound
    · rw [if_pos hlt] at h
      cases hc : copy_sample i o s with
      | error e => rw [hc] at h; cases h
      | ok s1 =>
        rw [hc] at h
        simp only at h
        rw [ih s1 s2 h, (copy_sample_fields i o s s1 hc).1]
    · rw [if_neg hlt] at h
      rw [← Except.ok.inj h]

theorem fill_until_fields (i o : Option Nat) (bound : Nat) (hbound : bound < 2 ^ 64) :
    ∀ (fuel : Nat) (s s2 : State α), s.out_index ≤ bound →
      fill_until i o bound fuel s = .ok s2 →
      s2.in_index = s.in_index ∧ s2.out_index = bound := by
  intro fuel
  induction fuel with
  | zero => intro s s2 _ h; rw [fill_until] at h; cases h
  | succ fuel ih =>
    intro s s2 hle h
    rw [fill_until] at h
    by_cases hlt : s.out_index < bound
    · rw [if_pos hlt] at h
      cases hc : copy_sample i o s with
      | error e => rw [hc] at h; cases h
      | ok s1 =>
        rw [hc] at h
        simp only at h
        obtain ⟨e1, e2⟩ := copy_sample_fields i o s s1 hc
        rw [uadd_eq _ _ (by omega)] at e2
        obtain ⟨r1, r2⟩ := ih s1 s2 (by omega) h
        exact ⟨by rw [r1, e1], r2⟩
    · rw [if_neg hlt] at h
      have e := Except.ok.inj h
      rw [← e]
      exact ⟨rfl, by omega⟩

theorem fill_until_halts (i o : Option Nat) (bound : Nat) (hbound : bound < 2 ^ 64) :
    ∀ (fuel : Nat) (s : State α), s.out_index ≤ bound → bound - s.out_index < fuel →
      fill_until i o bound fuel s ≠ .error Err.out_of_fuel := by
  intro fuel
  induction fuel with
  | zero => intro s _ hfuel; omega
  | succ fuel ih =>
    intro s hle hfuel
    rw [fill_until]
    by_cases hlt : s.out_index < bound
    · rw [if_pos hlt]
      cases hc : copy_sample i o s with
      | error e =>
        simp only
        intro h
        rw [Except.error.inj h] at hc
        exact copy_sample_not_out_of_fuel i o s hc
      | ok s1 =>
        simp only
        obtain ⟨_, e2⟩ := copy_sample_fields i o s s1 hc
        rw [uadd_eq _ _ (by omega)] at e2
        exact ih s1 (by omega) (by omega)
    · rw [if_neg hlt]
      intro h
      cases h

theorem no_wrap_of_not_tail (sample_count p n : Nat) (h1 : 1 ≤ n) (hn : n < 2 ^ 63)
    (hs : sample_count < 2 ^ 64) (hp : p < 2 ^ 64)
    (h : tail_test sample_count p (n : Int) = false) : p + n ≤ sample_count := by
  unfold tail_test at h
  rw [to_ulong_natCast_pred n h1 (by omega)] at h
  unfold usub at h
  simp only [Bool.or_eq_false_iff, decide_eq_false_iff_not] at h
  omega

theorem main_loop_halts (i o : Option Nat) (sample_count n : Nat) (h1 : 1 ≤ n)
    (hn : n < 2 ^ 63) (hs : sample_count < 2 ^ 64) :
    ∀ (fuel : Nat) (s : State α), s.out_index = s.in_index → 0 < fuel →
      sample_count < fuel + s.in_index →
      main_loop i o sample_count (n : Int) fuel s ≠ .error Err.out_of_fuel := by
  intro fuel
  induction fuel with
  | zero => intro s _ h0 _; omega
  | succ fuel ih =>
    intro s hsync _ hfuel
    rw [main_loop]
    by_cases hp : s.in_index < sample_count
    · rw [if_pos hp]
      cases hc : copy_sample i o s with
      | error e =>
        simp only
        intro h
        rw [Except.error.inj h] at hc
        exact copy_sample_not_out_of_fuel i o s hc
      | ok s1 =>
        simp only
        obtain ⟨e1, e2⟩ := copy_sample_fields i o s s1 hc
        rw [uadd_eq _ _ (by omega), hsync] at e2
        by_cases ht : tail_test sample_count s1.in_index (n : Int) = true
        · rw [if_pos ht]
          exact fill_until_halts i o sample_count hs fuel s1 (by omega) (by omega)
        · rw [if_neg ht]
          have hnt : tail_test sample_count s.in_index (n : Int) = false := by
            rw [← e1]
            exact Bool.eq_false_iff.2 ht
          have hle := no_wrap_of_not_tail sample_count s.in_index n h1 hn hs (by omega) hnt
          have hu : uadd s1.in_index (to_ulong (n : Int)) = s.in_index + n := by
            rw [to_ulong_natCast n (by omega), e1, uadd_eq _ _ (by omega)]
          rw [hu]
          cases hf : fill_until i o (s.in_index + n) fuel s1 with
          | error e =>
            simp only
            intro h
            rw [Except.error.inj h] at hf
            exact fill_until_halts i o (s.in_index + n) (by omega) fuel s1 (by omega)
              (by omega) hf
          | ok s2 =>
            simp only
            obtain ⟨r1, r2⟩ :=
              fill_until_fields i o (s.in_index + n) (by omega) fuel s1 s2 (by omega) hf
            have hu2 : uadd s2.in_index (to_ulong (n : Int)) = s.in_index + n := by
              rw [to_ulong_natCast n (by omega), r1, e1, uadd_eq _ _ (by omega)]
            rw [hu2]
            by_cases hend : s.in_index + n ≥ sample_count
            · rw [if_pos hend]
              intro h
              cases h
            · rw [if_neg hend]
              exact ih ⟨s2.heap, s.in_index + n, s2.out_index, s2.log⟩ r2 (by omega)
                (by show sample_count < fuel + (s.in_index + n); omega)
    · rw [if_neg hp]
      intro h
      cases h

theorem run_Ringer_halts (fuel sample_count : Nat) (handle : Option Ringer) (heap : Heap α)
    (hs : sample_count < 2 ^ 64) (hfuel : sample_count < fuel) :
    run_Ringer fuel handle sample_count heap ≠ .error Err.out_of_fuel := by
  unfold run_Ringer
  simp only
  by_cases hn : sample_count ≤ 1
  · rw [if_pos hn]
    intro h
    cases h
  · rw [if_neg hn]
    cases handle with
    | none =>
      simp only
      intro h
      cases h
    | some ringer =>
      simp only
      have hb := copies_bounds ringer
      cases hm : main_loop ringer.Input ringer.Output sample_count
          (LIMIT_BETWEEN_5_AND_200 ringer.copy_count) fuel ⟨heap, 0, 0, []⟩ with
      | error e =>
        simp only
        intro h
        rw [Except.error.inj h, ← copies_cast] at hm
        exact main_loop_halts ringer.Input ringer.Output sample_count (copies ringer)
          (by omega) (by omega) hs fuel ⟨heap, 0, 0, []⟩ rfl (by omega)
          (by show sample_count < fuel + 0; omega) hm
      | ok s1 =>
        simp only
        intro h
        cases h

theorem main_loop_succ (i o : Option Nat) (sample_count : Nat) (C : Int) (fuel : Nat)
    (s : State α) :
    main_loop i o sample_count C (fuel + 1) s
      = if s.in_index < sample_count then
          match loop_body i o sample_count C fuel s with
          | .error e => .error e
          | .ok (s1, true) => main_loop i o sample_count C fuel s1
          | .ok (s1, false) => .ok s1
        else .ok s := by
  rw [main_loop, loop_body]
  by_cases hp : s.in_index < sample_count
  · rw [if_pos hp, if_pos hp]
    cases copy_sample i o s with
    | error e => rfl
    | ok s1 =>
      simp only
      by_cases ht : tail_test sample_count s1.in_index C = true
      · rw [if_pos ht, if_pos ht]
        cases fill_until i o sample_count fuel s1 <;> rfl
      · rw [if_neg ht, if_neg ht]
        cases fill_until i o (uadd s1.in_index (to_ulong C)) fuel s1 with
        | error e => rfl
        | ok s2 =>
          simp only
          by_cases hend : uadd s2.in_index (to_ulong C) ≥ sample_count
          · rw [if_pos hend, if_pos hend]
          · rw [if_neg hend, if_neg hend]
  · rw [if_neg hp, if_neg hp]

theorem loop_body_tail (i o : Option Nat) (sample_count : Nat) (C : Int) (fuel : Nat)
    (s s1 : State α) (flag : Bool)
    (ht : tail_test sample_count s.in_index C = true)
    (h : loop_body i o sample_count C fuel s = .ok (s1, flag)) : flag = false := by
  unfold loop_body at h
  cases hc : copy_sample i o s with
  | error e => rw [hc] at h; cases h
  | ok s0 =>
    rw [hc] at h
    simp only at h
    rw [(copy_sample_fields i o s s0 hc).1, if_pos ht] at h
    cases hf : fill_until i o sample_count fuel s0 with
    | error e => rw [hf] at h; cases h
    | ok s2 =>
      rw [hf] at h
      simp only at h
      have e := Except.ok.inj h
      exact (congrArg Prod.snd e).symm

theorem loop_body_continue (i o : Option Nat) (sample_count n : Nat) (h1 : 1 ≤ n)
    (hn : n < 2 ^ 63) (hs : sample_count < 2 ^ 64) (fuel : Nat) (s s1 : State α)
    (hp : s.in_index < sample_count)
    (h : loop_body i o sample_count (n : Int) fuel s = .ok (s1, true)) :
    tail_test sample_count s.in_index (n : Int) = false
      ∧ s1.in_index = s.in_index + n
      ∧ s1.in_index < sample_count
      ∧ (s.out_index = s.in_index → s1.out_index = s1.in_index) := by
  unfold loop_body at h
  cases hc : copy_sample i o s with
  | error e => rw [hc] at h; cases h
  | ok s0 =>
    rw [hc] at h
    simp only at h
    obtain ⟨e1, e2⟩ := copy_sample_fields i o s s0 hc
    rw [e1] at h
    cases ht : tail_test sample_count s.in_index (n : Int) with
    | true =>
      rw [ht] at h
      simp only [if_true] at h
      cases hf : fill_until i o sample_count fuel s0 with
      | error e => rw [hf] at h; cases h
      | ok s2 =>
        rw [hf] at h
        simp only at h
        have e := congrArg Prod.snd (Except.ok.inj h)
        cases e
    | false =>
      rw [ht] at h
      simp only [Bool.false_eq_true, if_false] at h
      have hle := no_wrap_of_not_tail sample_count s.in_index n h1 hn hs (by omega) ht
      have hu : uadd s.in_index (to_ulong (n : Int)) = s.in_index + n := by
        rw [to_ulong_natCast n (by omega), uadd_eq _ _ (by omega)]
      rw [hu] at h
      cases hf : fill_until i o (s.in_index + n) fuel s0 with
      | error e => rw [hf] at h; cases h
      | ok s2 =>
        rw [hf] at h
        simp only at h
        have r1 := fill_until_in_index i o (s.in_index + n) fuel s0 s2 hf
        have hu2 : uadd s2.in_index (to_ulong (n : Int)) = s.in_index + n := by
          rw [to_ulong_natCast n (by omega), r1, e1, uadd_eq _ _ (by omega)]
        rw [hu2] at h
        by_cases hend : s.in_index + n ≥ sample_count
        · rw [if_pos hend] at h
          have e := congrArg Prod.snd (Except.ok.inj h)
          cases e
        · rw [if_neg hend] at h
          have e := congrArg Prod.fst (Except.ok.inj h)
          simp only at e
          rw [← e]
          refine ⟨rfl, rfl, by show s.in_index + n < sample_count; omega, ?_⟩
          intro hsync
          rw [hsync, uadd_eq _ _ (by omega)] at e2
          exact (fill_until_fields i o (s.in_index + n) (by omega) fuel s0 s2 (by omega) hf).2

/-- C14: for every `unsigned long` sample count, every handle (so every copy
count) and every memory, `run_Ringer` does not run out of fuel once the fuel
exceeds `sample_count`; the main loop is its body `loop_body` repeated; a pass
of the body that does not leave the loop adds the clamped copy count, at least
5, to `in_index`; a pass that takes the tail-fill branch leaves the loop. -/
theorem C14_main_loop_terminates (fuel sample_count : Nat) (handle : Option Ringer)
    (heap : Heap α) (hs : sample_count < 2 ^ 64) (hfuel : sample_count < fuel) :
    run_Ringer fuel handle sample_count heap ≠ .error Err.out_of_fuel
    ∧ (∀ (i o : Option Nat) (C : Int) (f : Nat) (s : State α),
        main_loop i o sample_count C (f + 1) s
          = if s.in_index < sample_count then
              match loop_body i o sample_count C f s with
              | .error e => .error e
              | .ok (s1, true) => main_loop i o sample_count C f s1
              | .ok (s1, false) => .ok s1
            else .ok s)
    ∧ (∀ (ringer : Ringer) (f : Nat) (s s1 : State α), s.in_index < sample_count →
        loop_body ringer.Input ringer.Output sample_count
            (LIMIT_BETWEEN_5_AND_200 ringer.copy_count) f s = .ok (s1, true) →
        s1.in_index = s.in_index + copies ringer ∧ 5 ≤ copies ringer
          ∧ s.in_index < s1.in_index)
    ∧ (∀ (ringer : Ringer) (f : Nat) (s s1 : State α) (flag : Bool),
        tail_test sample_count s.in_index (LIMIT_BETWEEN_5_AND_200 ringer.copy_count) = true →
        loop_body ringer.Input ringer.Output sample_count
            (LIMIT_BETWEEN_5_AND_200 ringer.copy_count) f s = .ok (s1, flag) →
        flag = false) := by
  refine ⟨run_Ringer_halts fuel sample_count handle heap hs hfuel,
    fun i o C f s => main_loop_succ i o sample_count C f s, ?_, ?_⟩
  · intro ringer f s s1 hp h
    have hb := copies_bounds ringer
    rw [← copies_cast] at h
    obtain ⟨_, e, _, _⟩ := loop_body_continue ringer.Input ringer.Output sample_count
      (copies ringer) (by omega) (by omega) hs f s s1 hp h
    exact ⟨e, hb.1, by omega⟩
  · intro ringer f s s1 flag ht h
    exact loop_body_tail _ _ sample_count _ f s s1 flag ht h

/-- Witness for C14: seven samples, fuel 8, copy count 5. -/
theorem C14_main_loop_terminates_witness :
    7 < 2 ^ 64 ∧ 7 < 8
      ∧ run_Ringer 8 (some ⟨5, some 0, some 1⟩) 7
          [[(0 : Int), 1, 2, 3, 4, 5, 6], [9, 9, 9, 9, 9, 9, 9]]
        ≠ .error Err.out_of_fuel :=
  ⟨by decide, by decide,
    (C14_main_loop_terminates 8 7 (some ⟨5, some 0, some 1⟩)
      [[(0 : Int), 1, 2, 3, 4, 5, 6], [9, 9, 9, 9, 9, 9, 9]] (by decide) (by decide)).1⟩

/-- C19: for a 64-bit `sample_count > 1`, a 64-bit `in_index` and a copy count
`c` in `[5, 200]`, when the tail-fill test is false the 64-bit sum
`in_index + c` is the mathematical sum, it is at most `sample_count`, and a
pass of the loop body entered with `out_index = in_index` that goes on to a
next pass ends with both cursors at `in_index + c`. -/
theorem C19_normal_run_does_not_wrap (sample_count in_index : Nat) (C : Int)
    (hgt : 1 < sample_count) (hs : sample_count < 2 ^ 64) (hp : in_index < 2 ^ 64)
    (h5 : 5 ≤ C) (h200 : C ≤ 200)
    (ht : tail_test sample_count in_index C = false) :
    uadd in_index (to_ulong C) = in_index + C.toNat
    ∧ ((uadd in_index (to_ulong C) : Nat) : Int) = (in_index : Int) + C
    ∧ (in_index : Int) + C ≤ (sample_count : Int)
    ∧ ∀ (i o : Option Nat) (fuel : Nat) (s s1 : State α),
        s.in_index = in_index → s.out_index = in_index →
        loop_body i o sample_count C fuel s = .ok (s1, true) →
        s1.in_index = in_index + C.toNat ∧ s1.out_index = s1.in_index := by
  have hC : ((C.toNat : Nat) : Int) = C := by omega
  rw [← hC] at ht
  have hle := no_wrap_of_not_tail sample_count in_index C.toNat (by omega) (by omega) hs hp ht
  have hto : to_ulong C = C.toNat := by
    unfold to_ulong
    omega
  have hu : uadd in_index (to_ulong C) = in_index + C.toNat := by
    rw [hto, uadd_eq _ _ (by omega)]
  refine ⟨hu, by rw [hu]; omega, by omega, ?_⟩
  intro i o fuel s s1 e1 e2 h
  rw [← hC] at h
  obtain ⟨_, r1, _, r2⟩ := loop_body_continue i o sample_count C.toNat (by omega) (by omega)
    hs fuel s s1 (by omega) h
  exact ⟨by rw [r1, e1], r2 (by rw [e1, e2])⟩

/-- Witness for C19: twelve samples, copy count 5, `in_index = 5`. -/
theorem C19_normal_run_does_not_wrap_witness :
    1 < 12 ∧ 12 < 2 ^ 64 ∧ 5 < 2 ^ 64 ∧ (5 : Int) ≤ 5 ∧ (5 : Int) ≤ 200
      ∧ tail_test 12 5 5 = false
      ∧ uadd 5 (to_ulong 5) = 5 + (5 : Int).toNat
      ∧ ((uadd 5 (to_ulong 5) : Nat) : Int) = ((5 : Nat) : Int) + 5
      ∧ ((5 : Nat) : Int) + 5 ≤ ((12 : Nat) : Int) :=
  have h := @C19_normal_run_does_not_wrap Int 12 5 5 (by decide) (by decide) (by decide)
    (by decide) (by decide) (by decide)
  ⟨by decide, by decide, by decide, by decide, by decide, by decide, h.1, h.2.1, h.2.2.1⟩

/-! ## The specification's algorithm -/

theorem spec_clamp_eq (r : Int) : spec_clamp 5 200 r = LIMIT_BETWEEN_5_AND_200 r := by
  unfold spec_clamp LIMIT_BETWEEN_5_AND_200
  split_ifs <;> omega

theorem spec_loop_ok (input : List α) (sample_count n : Nat) (h1 : 1 ≤ n)
    (hin : sample_count ≤ input.length) :
    ∀ (fuel p : Nat) (out : List α), p < sample_count → sample_count ≤ out.length →
      sample_count < fuel + p →
      ∃ out1, spec_loop input sample_count n fuel p p out = some out1
        ∧ out1.length = out.length
        ∧ ∀ j, out1[j]?
            = if p ≤ j ∧ j < sample_count then input[src p n j]? else out[j]? := by
  intro fuel
  induction fuel with
  | zero => intro p out hp _ hfuel; omega
  | succ fuel ih =>
    intro p out hp hlen hfuel
    have hplt : p < input.length := by omega
    have hv0 : input[p]? = some input[p] := List.getElem?_eq_getElem hplt
    rw [spec_loop, if_neg (by omega), hv0]
    simp only
    by_cases hrem : sample_count - p ≤ n
    · rw [if_pos hrem]
      refine ⟨_, rfl, length_paint _ _ _ _, ?_⟩
      intro j
      rw [paint_ringed input out p n (sample_count - p) input[p] hv0 hrem (by omega) j]
      have e : p + (sample_count - p) = sample_count := by omega
      rw [e]
    · rw [if_neg hrem]
      obtain ⟨out1, hrun, hlen1, hget⟩ := ih (p + n) (paint out p n input[p]) (by omega)
        (by rw [length_paint]; exact hlen) (by omega)
      refine ⟨out1, hrun, by rw [hlen1, length_paint], ?_⟩
      intro j
      rw [hget j]
      by_cases hj : p + n ≤ j ∧ j < sample_count
      · rw [if_pos hj, if_pos (by omega), src_shift p n j (by omega) hj.1]
      · rw [if_neg hj, paint_ringed input out p n n input[p] hv0 (Nat.le_refl n)
          (by omega) j]
        by_cases hj2 : p ≤ j ∧ j < p + n
        · rw [if_pos hj2, if_pos (by omega)]
        · rw [if_neg hj2, if_neg (by omega)]

/-- C15: for a call with `sample_count > 1` the output buffer that
`run_Ringer` leaves, computed with the 64-bit wrapping tail test, is the
buffer that the two-cursor algorithm of the specification computes in
unbounded integers from the same input, copy count and output buffer. -/
theorem C15_run_refines_spec_algorithm (fuel sample_count a b : Nat) (ringer : Ringer)
    (heap : Heap α) (input output : List α)
    (hc : ValidCall ringer sample_count heap a b input output)
    (hfuel : sample_count < fuel) :
    ∃ s1 output1,
      run_Ringer fuel (some ringer) sample_count heap = .ok (Status.completed, s1)
      ∧ s1.heap[b]? = some output1
      ∧ spec_transform fuel input sample_count ringer.copy_count output = some output1 := by
  obtain ⟨s1, output1, hrun, _, hheap, hlen, hget, _⟩ :=
    run_Ringer_ok fuel sample_count a b ringer heap input output hc hfuel
  have hb := copies_bounds ringer
  obtain ⟨out1, hspec, hlen1, hget1⟩ := spec_loop_ok input sample_count (copies ringer)
    (by omega) hc.input_len fuel 0 output (by have := hc.count_gt; omega) hc.output_len
    (by omega)
  have e : out1 = output1 := by
    apply List.ext_getElem?
    intro j
    rw [hget1 j, hget j, src_zero]
    simp
  refine ⟨s1, output1, hrun, ?_, ?_⟩
  · rw [hheap]
    exact getElem?_set_self_some heap b output output1 hc.output_at
  · unfold spec_transform
    rw [spec_clamp_eq]
    rw [← e]
    exact hspec

/-- Witness for C15: seven samples, copy count 5. -/
theorem C15_run_refines_spec_algorithm_witness :
    ValidCall ⟨5, some 0, some 1⟩ 7
        [[(0 : Int), 1, 2, 3, 4, 5, 6], [9, 9, 9, 9, 9, 9, 9]] 0 1
        [0, 1, 2, 3, 4, 5, 6] [9, 9, 9, 9, 9, 9, 9]
      ∧ ∃ s1 output1,
        run_Ringer 8 (some ⟨5, some 0, some 1⟩) 7
            [[(0 : Int), 1, 2, 3, 4, 5, 6], [9, 9, 9, 9, 9, 9, 9]]
          = .ok (Status.completed, s1)
        ∧ s1.heap[1]? = some output1
        ∧ spec_transform 8 [(0 : Int), 1, 2, 3, 4, 5, 6] 7 5 [9, 9, 9, 9, 9, 9, 9]
          = some output1 :=
  have hc : ValidCall ⟨5, some 0, some 1⟩ 7
      [[(0 : Int), 1, 2, 3, 4, 5, 6], [9, 9, 9, 9, 9, 9, 9]] 0 1
      [0, 1, 2, 3, 4, 5, 6] [9, 9, 9, 9, 9, 9, 9] :=
    ⟨rfl, rfl, rfl, rfl, by decide, by decide, by decide, by decide⟩
  ⟨hc, C15_run_refines_spec_algorithm 8 7 0 1 _ _ _ _ hc (by decide)⟩

/-! ## The plugin and the test driver -/

theorem test_copies_eq_copies (ringer : Ringer) (h : ringer.copy_count ≤ 200) :
    test_copies ringer = copies ringer := by
  unfold test_copies copies LIMIT_BETWEEN_5_AND_500 LIMIT_BETWEEN_5_AND_200
  split_ifs <;> first | rfl | omega

/-- C16: for a call with `sample_count > 1` and a copy count of at most 200
the plugin and the test driver (its trace file opened) complete and leave the
same memory, hence the same output buffer; for a call that is not executed
(`sample_count ≤ 1` or a NULL instance) the two return the same result. -/
theorem C16_test_driver_agrees_with_plugin (fuel sample_count a b : Nat) (ringer : Ringer)
    (heap : Heap α) (input output : List α)
    (hc : ValidCall ringer sample_count heap a b input output)
    (hfuel : sample_count < fuel) (hrep : ringer.copy_count ≤ 200) :
    (∃ s1 t1 output1,
      run_Ringer fuel (some ringer) sample_count heap = .ok (Status.completed, s1)
      ∧ UnitTest.run_Ringer fuel true (some ringer) sample_count heap
        = .ok (Status.completed, t1)
      ∧ s1.heap = t1.heap
      ∧ s1.heap[b]? = some output1 ∧ t1.heap[b]? = some output1)
    ∧ ∀ (f n : Nat) (h : Option Ringer) (m : Heap α), n ≤ 1 ∨ h = none →
        UnitTest.run_Ringer f true h n m = run_Ringer f h n m := by
  constructor
  · obtain ⟨s1, output1, hrun, _, hheap, hlen, hget, _⟩ :=
      run_Ringer_ok fuel sample_count a b ringer heap input output hc hfuel
    obtain ⟨t1, output2, hrun2, _, hheap2, hlen2, hget2, _⟩ :=
      test_run_Ringer_ok fuel sample_count a b ringer heap input output hc hfuel
    have e : output2 = output1 := by
      apply List.ext_getElem?
      intro j
      rw [hget j, hget2 j, test_copies_eq_copies ringer hrep]
    rw [e] at hheap2
    refine ⟨s1, t1, output1, hrun, hrun2, by rw [hheap, hheap2], ?_, ?_⟩
    · rw [hheap]
      exact getElem?_set_self_some heap b output output1 hc.output_at
    · rw [hheap2]
      exact getElem?_set_self_some heap b output output1 hc.output_at
  · intro f n h m hcase
    unfold UnitTest.run_Ringer run_Ringer
    simp only
    by_cases hn : n ≤ 1
    · rw [if_pos hn, if_pos hn]
    · rw [if_neg hn, if_neg hn]
      rcases hcase with h1 | h1
      · exact absurd h1 hn
      · rw [h1]

/-- Witness for C16: seven samples, copy count 3, which both clamps raise
to 5. -/
theorem C16_test_driver_agrees_with_plugin_witness :
    ValidCall ⟨3, some 0, some 1⟩ 7
        [[(0 : Int), 1, 2, 3, 4, 5, 6], [9, 9, 9, 9, 9, 9, 9]] 0 1
        [0, 1, 2, 3, 4, 5, 6] [9, 9, 9, 9, 9, 9, 9]
      ∧ (3 : Int) ≤ 200
      ∧ ∃ s1 t1 output1,
        run_Ringer 8 (some ⟨3, some 0, some 1⟩) 7
            [[(0 : Int), 1, 2, 3, 4, 5, 6], [9, 9, 9, 9, 9, 9, 9]]
          = .ok (Status.completed, s1)
        ∧ UnitTest.run_Ringer 8 true (some ⟨3, some 0, some 1⟩) 7
            [[(0 : Int), 1, 2, 3, 4, 5, 6], [9, 9, 9, 9, 9, 9, 9]]
          = .ok (Status.completed, t1)
        ∧ s1.heap = t1.heap
        ∧ s1.heap[1]? = some output1 ∧ t1.heap[1]? = some output1 :=
  have hc : ValidCall ⟨3, some 0, some 1⟩ 7
      [[(0 : Int), 1, 2, 3, 4, 5, 6], [9, 9, 9, 9, 9, 9, 9]] 0 1
      [0, 1, 2, 3, 4, 5, 6] [9, 9, 9, 9, 9, 9, 9] :=
    ⟨rfl, rfl, rfl, rfl, by decide, by decide, by decide, by decide⟩
  ⟨hc, by decide,
    (C16_test_driver_agrees_with_plugin 8 7 0 1 _ _ _ _ hc (by decide) (by decide)).1⟩

/-! ## The sentinel of the tail test -/

theorem wrap_sentinel_iff (sample_count : Nat) (C : Int) (hs : sample_count < 2 ^ 64)
    (h5 : 5 ≤ C) (h200 : C ≤ 200) :
    wrap_sentinel sample_count C = true
      ↔ ((sample_count : Int) < C - 1 ∨ sample_count = 2 ^ 64 - 1) := by
  have hto : to_ulong (C - 1) = (C - 1).toNat := by
    unfold to_ulong
    omega
  unfold wrap_sentinel
  rw [hto]
  unfold usub
  simp only [decide_eq_true_eq]
  omega

/-- C17 fails at `sample_count = ULONG_MAX`: there
`sample_count - (c - 1)` does not underflow, yet the second disjunct of the
tail test is true (for copy count 5, and for every copy count in `[5, 200]`),
and so is the tail test at `in_index = 0` although the first disjunct is
false. For every other 64-bit `sample_count` the second disjunct is true
exactly when `sample_count < c - 1`, in which case the first disjunct is
false at `in_index = 0`. -/
theorem C17_sentinel_fires_without_underflow_at_ULONG_MAX :
    wrap_sentinel 18446744073709551615 5 = true
    ∧ usub 18446744073709551615 (to_ulong (5 - 1)) = 18446744073709551615 - 4
    ∧ ¬ (((18446744073709551615 : Nat) : Int) < 5 - 1)
    ∧ tail_reached 18446744073709551615 0 5 = false
    ∧ tail_test 18446744073709551615 0 5 = true
    ∧ (∀ C : Int, 5 ≤ C → C ≤ 200 →
        wrap_sentinel (2 ^ 64 - 1) C = true ∧ ¬ (((2 ^ 64 - 1 : Nat) : Int) < C - 1))
    ∧ (∀ (sample_count : Nat) (C : Int), sample_count < 2 ^ 64 - 1 → 5 ≤ C → C ≤ 200 →
        (wrap_sentinel sample_count C = true ↔ (sample_count : Int) < C - 1))
    ∧ (∀ (sample_count : Nat) (C : Int), sample_count < 2 ^ 64 → 5 ≤ C → C ≤ 200 →
        (sample_count : Int) < C - 1 → tail_reached sample_count 0 C = false)
    ∧ (∀ (sample_count in_index : Nat) (C : Int),
        tail_test sample_count in_index C
          = (tail_reached sample_count in_index C || wrap_sentinel sample_count C)) := by
  refine ⟨by decide, by decide, by decide, by decide, by decide, ?_, ?_, ?_, ?_⟩
  · intro C h5 h200
    refine ⟨(wrap_sentinel_iff _ C (by omega) h5 h200).2 (Or.inr rfl), by omega⟩
  · intro sample_count C hs h5 h200
    rw [wrap_sentinel_iff sample_count C (by omega) h5 h200]
    omega
  · intro sample_count C hs h5 h200 hlt
    have hto : to_ulong (C - 1) = (C - 1).toNat := by
      unfold to_ulong
      omega
    unfold tail_reached
    rw [hto]
    unfold usub
    simp only [decide_eq_false_iff_not]
    omega
  · intro sample_count in_index C
    rfl

/-- C17, amended: for every 64-bit `sample_count` other than `ULONG_MAX` and
every copy count `c` in `[5, 200]`, the second disjunct of the tail test is
true exactly when `sample_count - (c - 1)` underflows, that is when
`sample_count < c - 1`; in that case the wrapped difference is
`sample_count - (c - 1) + 2 ^ 64` and the first disjunct is false at
`in_index = 0`; the tail test is the disjunction of the two. -/
theorem C17_sentinel_detects_underflow_below_ULONG_MAX (sample_count : Nat) (C : Int)
    (hs : sample_count < 2 ^ 64 - 1) (h5 : 5 ≤ C) (h200 : C ≤ 200) :
    (wrap_sentinel sample_count C = true ↔ (sample_count : Int) < C - 1)
    ∧ ((sample_count : Int) < C - 1 →
        ((usub sample_count (to_ulong (C - 1)) : Nat) : Int)
            = (sample_count : Int) - (C - 1) + 2 ^ 64
          ∧ tail_reached sample_count 0 C = false)
    ∧ (¬ (sample_count : Int) < C - 1 →
        ((usub sample_count (to_ulong (C - 1)) : Nat) : Int) = (sample_count : Int) - (C - 1))
    ∧ ∀ in_index : Nat,
        tail_test sample_count in_index C
          = (tail_reached sample_count in_index C || wrap_sentinel sample_count C) := by
  have hto : to_ulong (C - 1) = (C - 1).toNat := by
    unfold to_ulong
    omega
  refine ⟨?_, ?_, ?_, fun _ => rfl⟩
  · rw [wrap_sentinel_iff sample_count C (by omega) h5 h200]
    omega
  · intro hlt
    unfold tail_reached
    rw [hto]
    unfold usub
    simp only [decide_eq_false_iff_not]
    omega
  · intro hge
    rw [hto]
    unfold usub
    omega

/-- Witness for the amended C17: three samples and copy count 5, where
`3 - 4` underflows. -/
theorem C17_sentinel_detects_underflow_below_ULONG_MAX_witness :
    3 < 2 ^ 64 - 1 ∧ (5 : Int) ≤ 5 ∧ (5 : Int) ≤ 200
      ∧ (wrap_sentinel 3 5 = true ↔ ((3 : Nat) : Int) < 5 - 1)
      ∧ (((3 : Nat) : Int) < 5 - 1 →
          ((usub 3 (to_ulong (5 - 1)) : Nat) : Int) = ((3 : Nat) : Int) - (5 - 1) + 2 ^ 64
            ∧ tail_reached 3 0 5 = false)
      ∧ (¬ ((3 : Nat) : Int) < 5 - 1 →
          ((usub 3 (to_ulong (5 - 1)) : Nat) : Int) = ((3 : Nat) : Int) - (5 - 1))
      ∧ ∀ in_index : Nat,
          tail_test 3 in_index 5 = (tail_reached 3 in_index 5 || wrap_sentinel 3 5) :=
  ⟨by decide, by decide, by decide,
    C17_sentinel_detects_underflow_below_ULONG_MAX 3 5 (by decide) (by decide) (by decide)⟩

/-! ## In-place operation and idempotence -/

/-- C18: a call with `sample_count > 1` whose input and output port name the
same block, and a call with the same copy count on a heap where `input` sits
in one block and the output port names another: both complete, every read of
the in-place run returns the sample that `input` held at that index before
the call, the separate run leaves its input block as it was, and the two
resulting buffers agree on their first `sample_count` samples (and are equal
when both buffers have exactly `sample_count` samples). -/
theorem C18_in_place_run_matches_separate_run
    (fuel1 fuel2 sample_count a a2 b2 : Nat) (ringer1 ringer2 : Ringer)
    (heap1 heap2 : Heap α) (input output2 : List α)
    (hc1 : ValidCall ringer1 sample_count heap1 a a input input)
    (hc2 : ValidCall ringer2 sample_count heap2 a2 b2 input output2)
    (hsep : a2 ≠ b2) (hrep : ringer1.copy_count = ringer2.copy_count)
    (hfuel1 : sample_count < fuel1) (hfuel2 : sample_count < fuel2) :
    ∃ s1 s2 buffer1 result2,
      run_Ringer fuel1 (some ringer1) sample_count heap1 = .ok (Status.completed, s1)
      ∧ run_Ringer fuel2 (some ringer2) sample_count heap2 = .ok (Status.completed, s2)
      ∧ s1.heap[a]? = some buffer1
      ∧ s2.heap[b2]? = some result2
      ∧ s2.heap[a2]? = some input
      ∧ buffer1.take sample_count = result2.take sample_count
      ∧ (input.length = sample_count → output2.length = sample_count → buffer1 = result2)
      ∧ (∀ i v, (i, v) ∈ loads s1.log → input[i]? = some v) := by
  obtain ⟨s1, buffer1, hrun1, _, hheap1, hlen1, hget1, hlog1⟩ :=
    run_Ringer_ok fuel1 sample_count a a ringer1 heap1 input input hc1 hfuel1
  obtain ⟨s2, result2, hrun2, _, hheap2, hlen2, hget2, _⟩ :=
    run_Ringer_ok fuel2 sample_count a2 b2 ringer2 heap2 input output2 hc2 hfuel2
  have hcop : copies ringer1 = copies ringer2 := by unfold copies; rw [hrep]
  have htake : buffer1.take sample_count = result2.take sample_count := by
    apply take_eq_of_getElem?
    intro j hj
    rw [hget1 j, hget2 j, if_pos hj, if_pos hj, hcop]
  refine ⟨s1, s2, buffer1, result2, hrun1, hrun2, ?_, ?_, ?_, htake, ?_, ?_⟩
  · rw [hheap1]
    exact getElem?_set_self_some heap1 a input buffer1 hc1.output_at
  · rw [hheap2]
    exact getElem?_set_self_some heap2 b2 output2 result2 hc2.output_at
  · rw [hheap2, List.getElem?_set_ne (Ne.symm hsep)]
    exact hc2.input_at
  · intro h1 h2
    rw [← List.take_of_length_le (Nat.le_of_eq (hlen1.trans h1)),
      ← List.take_of_length_le (Nat.le_of_eq (hlen2.trans h2))]
    exact htake
  · intro i v h
    rw [hlog1] at h
    obtain ⟨_, _, _, _, hv⟩ := mem_loads_ring_events input 0 (copies ringer1) sample_count i v h
    exact hv

/-- Witness for C18: twelve samples, copy count 5, once in place in block 0 and
once from block 0 to block 1. -/
theorem C18_in_place_run_matches_separate_run_witness :
    ValidCall ⟨5, some 0, some 0⟩ 12 [[(0 : Int), 1, 2, 3, 4, 5, 6, 7, 8, 9, 10, 11]] 0 0
        [0, 1, 2, 3, 4, 5, 6, 7, 8, 9, 10, 11] [0, 1, 2, 3, 4, 5, 6, 7, 8, 9, 10, 11]
      ∧ ValidCall ⟨5, some 0, some 1⟩ 12
        [[(0 : Int), 1, 2, 3, 4, 5, 6, 7, 8, 9, 10, 11],
          [9, 9, 9, 9, 9, 9, 9, 9, 9, 9, 9, 9]] 0 1
        [0, 1, 2, 3, 4, 5, 6, 7, 8, 9, 10, 11] [9, 9, 9, 9, 9, 9, 9, 9, 9, 9, 9, 9]
      ∧ ∃ s1 s2 buffer1 result2,
        run_Ringer 13 (some ⟨5, some 0, some 0⟩) 12
            [[(0 : Int), 1, 2, 3, 4, 5, 6, 7, 8, 9, 10, 11]]
          = .ok (Status.completed, s1)
        ∧ run_Ringer 13 (some ⟨5, some 0, some 1⟩) 12
            [[(0 : Int), 1, 2, 3, 4, 5, 6, 7, 8, 9, 10, 11],
              [9, 9, 9, 9, 9, 9, 9, 9, 9, 9, 9, 9]]
          = .ok (Status.completed, s2)
        ∧ s1.heap[0]? = some buffer1
        ∧ s2.heap[1]? = some result2
        ∧ s2.heap[0]? = some [0, 1, 2, 3, 4, 5, 6, 7, 8, 9, 10, 11]
        ∧ buffer1.take 12 = result2.take 12
        ∧ ([(0 : Int), 1, 2, 3, 4, 5, 6, 7, 8, 9, 10, 11].length = 12 →
            [(9 : Int), 9, 9, 9, 9, 9, 9, 9, 9, 9, 9, 9].length = 12 → buffer1 = result2)
        ∧ (∀ i v, (i, v) ∈ loads s1.log →
            [(0 : Int), 1, 2, 3, 4, 5, 6, 7, 8, 9, 10, 11][i]? = some v) :=
  have hc1 : ValidCall ⟨5, some 0, some 0⟩ 12
      [[(0 : Int), 1, 2, 3, 4, 5, 6, 7, 8, 9, 10, 11]] 0 0
      [0, 1, 2, 3, 4, 5, 6, 7, 8, 9, 10, 11] [0, 1, 2, 3, 4, 5, 6, 7, 8, 9, 10, 11] :=
    ⟨rfl, rfl, rfl, rfl, by decide, by decide, by decide, by decide⟩
  have hc2 : ValidCall ⟨5, some 0, some 1⟩ 12
      [[(0 : Int), 1, 2, 3, 4, 5, 6, 7, 8, 9, 10, 11],
        [9, 9, 9, 9, 9, 9, 9, 9, 9, 9, 9, 9]] 0 1
      [0, 1, 2, 3, 4, 5, 6, 7, 8, 9, 10, 11] [9, 9, 9, 9, 9, 9, 9, 9, 9, 9, 9, 9] :=
    ⟨rfl, rfl, rfl, rfl, by decide, by decide, by decide, by decide⟩
  ⟨hc1, hc2, C18_in_place_run_matches_separate_run 13 13 12 0 0 1 _ _ _ _ _ _ hc1 hc2
    (by decide) rfl (by decide) (by decide)⟩

/-- C20: after a call with `sample_count > 1`, any further call with the same
`sample_count` and copy count whose input buffer holds the output of the first
run ends with an output that agrees with the first output on its first
`sample_count` samples. -/
theorem C20_second_run_reproduces_output (fuel sample_count a b : Nat) (ringer : Ringer)
    (heap : Heap α) (input output : List α)
    (hc : ValidCall ringer sample_count heap a b input output)
    (hfuel : sample_count < fuel) :
    ∃ s1 output1,
      run_Ringer fuel (some ringer) sample_count heap = .ok (Status.completed, s1)
      ∧ s1.heap[b]? = some output1
      ∧ ∀ (fuel2 a2 b2 : Nat) (ringer2 : Ringer) (heap2 : Heap α) (output2 : List α),
          ringer2.copy_count = ringer.copy_count →
          ValidCall ringer2 sample_count heap2 a2 b2 output1 output2 →
          sample_count < fuel2 →
          ∃ s2 output3,
            run_Ringer fuel2 (some ringer2) sample_count heap2 = .ok (Status.completed, s2)
            ∧ s2.heap[b2]? = some output3
            ∧ output3.take sample_count = output1.take sample_count := by
  obtain ⟨s1, output1, hrun, _, hheap, _, hget, _⟩ :=
    run_Ringer_ok fuel sample_count a b ringer heap input output hc hfuel
  refine ⟨s1, output1, hrun, ?_, ?_⟩
  · rw [hheap]
    exact getElem?_set_self_some heap b output output1 hc.output_at
  · intro fuel2 a2 b2 ringer2 heap2 output2 hrep hc2 hfuel2
    obtain ⟨s2, output3, hrun2, _, hheap2, _, hget2, _⟩ :=
      run_Ringer_ok fuel2 sample_count a2 b2 ringer2 heap2 output1 output2 hc2 hfuel2
    have hcop : copies ringer2 = copies ringer := by unfold copies; rw [hrep]
    have hpos : 0 < copies ringer := by have := (copies_bounds ringer).1; omega
    refine ⟨s2, output3, hrun2, ?_, ?_⟩
    · rw [hheap2]
      exact getElem?_set_self_some heap2 b2 output2 output3 hc2.output_at
    · apply take_eq_of_getElem?
      intro j hj
      rw [hget2 j, if_pos hj, hcop, hget (copies ringer * (j / copies ringer)),
        if_pos (stride_lt (copies ringer) j sample_count hj),
        Nat.mul_div_cancel_left _ hpos, hget j, if_pos hj]

/-- Witness for C20: seven samples, copy count 5. -/
theorem C20_second_run_reproduces_output_witness :
    ValidCall ⟨5, some 0, some 1⟩ 7
        [[(0 : Int), 1, 2, 3, 4, 5, 6], [9, 9, 9, 9, 9, 9, 9]] 0 1
        [0, 1, 2, 3, 4, 5, 6] [9, 9, 9, 9, 9, 9, 9]
      ∧ ∃ s1 output1,
        run_Ringer 8 (some ⟨5, some 0, some 1⟩) 7
            [[(0 : Int), 1, 2, 3, 4, 5, 6], [9, 9, 9, 9, 9, 9, 9]]
          = .ok (Status.completed, s1)
        ∧ s1.heap[1]? = some output1
        ∧ ∀ (fuel2 a2 b2 : Nat) (ringer2 : Ringer) (heap2 : Heap Int) (output2 : List Int),
            ringer2.copy_count = (5 : Int) →
            ValidCall ringer2 7 heap2 a2 b2 output1 output2 →
            7 < fuel2 →
            ∃ s2 output3,
              run_Ringer fuel2 (some ringer2) 7 heap2 = .ok (Status.completed, s2)
              ∧ s2.heap[b2]? = some output3
              ∧ output3.take 7 = output1.take 7 :=
  have hc : ValidCall ⟨5, some 0, some 1⟩ 7
      [[(0 : Int), 1, 2, 3, 4, 5, 6], [9, 9, 9, 9, 9, 9, 9]] 0 1
      [0, 1, 2, 3, 4, 5, 6] [9, 9, 9, 9, 9, 9, 9] :=
    ⟨rfl, rfl, rfl, rfl, by decide, by decide, by decide, by decide⟩
  ⟨hc, C20_second_run_reproduces_output 8 7 0 1 _ _ _ _ hc (by decide)⟩

/-! ## The samples that a run uses -/

/-- C21: for a call with `sample_count > 1` every read of `input` is at a
multiple of the clamped copy count `c`, below `sample_count`; two calls with
the same `sample_count` and copy count whose inputs agree at every index
`c * k < sample_count` end with outputs that agree on their first
`sample_count` samples, and with equal output buffers when the output buffers
were equal before. -/
theorem C21_only_stride_samples_matter (fuel1 fuel2 sample_count a1 b1 a2 b2 : Nat)
    (ringer1 ringer2 : Ringer) (heap1 heap2 : Heap α) (input1 output1 input2 output2 : List α)
    (hc1 : ValidCall ringer1 sample_count heap1 a1 b1 input1 output1)
    (hc2 : ValidCall ringer2 sample_count heap2 a2 b2 input2 output2)
    (hrep : ringer1.copy_count = ringer2.copy_count)
    (hin : ∀ k, copies ringer1 * k < sample_count →
      input1[copies ringer1 * k]? = input2[copies ringer1 * k]?)
    (hfuel1 : sample_count < fuel1) (hfuel2 : sample_count < fuel2) :
    ∃ s1 s2 result1 result2,
      run_Ringer fuel1 (some ringer1) sample_count heap1 = .ok (Status.completed, s1)
      ∧ run_Ringer fuel2 (some ringer2) sample_count heap2 = .ok (Status.completed, s2)
      ∧ s1.heap[b1]? = some result1
      ∧ s2.heap[b2]? = some result2
      ∧ (∀ i, i ∈ reads s1.log → copies ringer1 ∣ i ∧ i < sample_count)
      ∧ (∀ i, i ∈ reads s2.log → copies ringer1 ∣ i ∧ i < sample_count)
      ∧ result1.take sample_count = result2.take sample_count
      ∧ (output1 = output2 → result1 = result2) := by
  obtain ⟨s1, result1, hrun1, _, hheap1, hlen1, hget1, hlog1⟩ :=
    run_Ringer_ok fuel1 sample_count a1 b1 ringer1 heap1 input1 output1 hc1 hfuel1
  obtain ⟨s2, result2, hrun2, _, hheap2, hlen2, hget2, hlog2⟩ :=
    run_Ringer_ok fuel2 sample_count a2 b2 ringer2 heap2 input2 output2 hc2 hfuel2
  have hcop : copies ringer2 = copies ringer1 := by unfold copies; rw [hrep]
  rw [hcop] at hget2 hlog2
  have hreads : ∀ (input : List α) (log : List (Event α)),
      log = ring_events input 0 (copies ringer1) sample_count →
      ∀ i, i ∈ reads log → copies ringer1 ∣ i ∧ i < sample_count := by
    intro input log hlog i h
    rw [reads_eq_map_loads, List.mem_map] at h
    obtain ⟨⟨i1, v⟩, hmem, e⟩ := h
    simp only at e
    rw [hlog] at hmem
    obtain ⟨j, _, hj, e1, _⟩ :=
      mem_loads_ring_events input 0 (copies ringer1) sample_count i1 v hmem
    rw [← e, e1, src_zero]
    exact ⟨Dvd.intro _ rfl, stride_lt (copies ringer1) j sample_count (by omega)⟩
  have hsame : ∀ j, j < sample_count → result1[j]? = result2[j]? := by
    intro j hj
    rw [hget1 j, hget2 j, if_pos hj, if_pos hj]
    exact hin (j / copies ringer1) (stride_lt (copies ringer1) j sample_count hj)
  refine ⟨s1, s2, result1, result2, hrun1, hrun2, ?_, ?_, hreads input1 s1.log hlog1,
    hreads input2 s2.log hlog2, take_eq_of_getElem? result1 result2 sample_count hsame, ?_⟩
  · rw [hheap1]
    exact getElem?_set_self_some heap1 b1 output1 result1 hc1.output_at
  · rw [hheap2]
    exact getElem?_set_self_some heap2 b2 output2 result2 hc2.output_at
  · intro hout
    apply List.ext_getElem?
    intro j
    by_cases hj : j < sample_count
    · exact hsame j hj
    · rw [hget1 j, hget2 j, if_neg hj, if_neg hj, hout]

/-- Witness for C21: seven samples, copy count 5; the two inputs agree at the
indices 0 and 5 only. -/
theorem C21_only_stride_samples_matter_witness :
    ValidCall ⟨5, some 0, some 1⟩ 7
        [[(0 : Int), 1, 2, 3, 4, 5, 6], [9, 9, 9, 9, 9, 9, 9]] 0 1
        [0, 1, 2, 3, 4, 5, 6] [9, 9, 9, 9, 9, 9, 9]
      ∧ ValidCall ⟨5, some 0, some 1⟩ 7
        [[(0 : Int), 11, 12, 13, 14, 5, 16], [9, 9, 9, 9, 9, 9, 9]] 0 1
        [0, 11, 12, 13, 14, 5, 16] [9, 9, 9, 9, 9, 9, 9]
      ∧ (∀ k, copies ⟨5, some 0, some 1⟩ * k < 7 →
          [(0 : Int), 1, 2, 3, 4, 5, 6][copies ⟨5, some 0, some 1⟩ * k]?
            = [(0 : Int), 11, 12, 13, 14, 5, 16][copies ⟨5, some 0, some 1⟩ * k]?)
      ∧ ∃ s1 s2 result1 result2,
        run_Ringer 8 (some ⟨5, some 0, some 1⟩) 7
            [[(0 : Int), 1, 2, 3, 4, 5, 6], [9, 9, 9, 9, 9, 9, 9]]
          = .ok (Status.completed, s1)
        ∧ run_Ringer 8 (some ⟨5, some 0, some 1⟩) 7
            [[(0 : Int), 11, 12, 13, 14, 5, 16], [9, 9, 9, 9, 9, 9, 9]]
          = .ok (Status.completed, s2)
        ∧ s1.heap[1]? = some result1
        ∧ s2.heap[1]? = some result2
        ∧ (∀ i, i ∈ reads s1.log → copies ⟨5, some 0, some 1⟩ ∣ i ∧ i < 7)
        ∧ (∀ i, i ∈ reads s2.log → copies ⟨5, some 0, some 1⟩ ∣ i ∧ i < 7)
        ∧ result1.take 7 = result2.take 7
        ∧ ([(9 : Int), 9, 9, 9, 9, 9, 9] = [9, 9, 9, 9, 9, 9, 9] → result1 = result2) :=
  have hc1 : ValidCall ⟨5, some 0, some 1⟩ 7
      [[(0 : Int), 1, 2, 3, 4, 5, 6], [9, 9, 9, 9, 9, 9, 9]] 0 1
      [0, 1, 2, 3, 4, 5, 6] [9, 9, 9, 9, 9, 9, 9] :=
    ⟨rfl, rfl, rfl, rfl, by decide, by decide, by decide, by decide⟩
  have hc2 : ValidCall ⟨5, some 0, some 1⟩ 7
      [[(0 : Int), 11, 12, 13, 14, 5, 16], [9, 9, 9, 9, 9, 9, 9]] 0 1
      [0, 11, 12, 13, 14, 5, 16] [9, 9, 9, 9, 9, 9, 9] :=
    ⟨rfl, rfl, rfl, rfl, by decide, by decide, by decide, by decide⟩
  have hin : ∀ k, copies ⟨5, some 0, some 1⟩ * k < 7 →
      [(0 : Int), 1, 2, 3, 4, 5, 6][copies ⟨5, some 0, some 1⟩ * k]?
        = [(0 : Int), 11, 12, 13, 14, 5, 16][copies ⟨5, some 0, some 1⟩ * k]? := by
    intro k hk
    have h5 : copies ⟨5, some 0, some 1⟩ = 5 := rfl
    rw [h5] at hk ⊢
    have hk2 : k = 0 ∨ k = 1 := by omega
    rcases hk2 with e | e <;> rw [e] <;> rfl
  ⟨hc1, hc2, hin, C21_only_stride_samples_matter 8 8 7 0 1 0 1 _ _ _ _ _ _ _ _ hc1 hc2 rfl hin
    (by decide) (by decide)⟩

end SbRinger
